import Mathlib

/-!
Verification of the Pawkit installation engine (src/src/commands.js) against its
natural-language specification.  The engine's path resolver, install pipeline,
remover and version comparator are shallowly embedded below; strings are
`List Char`, the filesystem is an association list from paths to objects, and
all stateful code threads the filesystem state explicitly.
-/

namespace Pawkit

/-- Strings of the JavaScript source, embedded as lists of characters. -/
abbrev Str := List Char

/-- Shorthand to turn a Lean string literal into the embedding's string type. -/
def str (s : String) : Str := s.toList

/-- Boolean prefix test on embedded strings (JS `String.prototype.startsWith`). -/
def strPre : Str → Str → Bool
  | [], _ => true
  | _ :: _, [] => false
  | a :: as, b :: bs => if a = b then strPre as bs else false

/-- Boolean suffix test on embedded strings (JS `String.prototype.endsWith`). -/
def strSuffix (pat s : Str) : Bool := strPre pat.reverse s.reverse

/-- Substring containment (JS `String.prototype.includes`). -/
def containsSubstr (pat : Str) : Str → Bool
  | [] => strPre pat []
  | c :: rest => strPre pat (c :: rest) || containsSubstr pat rest

/-- Split a string on a separator character; like JS `split`, the result always
has at least one (possibly empty) piece. -/
def splitOnChar (sep : Char) : Str → List Str
  | [] => [[]]
  | c :: rest =>
    match splitOnChar sep rest with
    | [] => if c = sep then [[], []] else [[c]]
    | s :: tl => if c = sep then [] :: s :: tl else (c :: s) :: tl

/-- Join pieces with a separator character. -/
def joinWithChar (sep : Char) : List Str → Str
  | [] => []
  | [s] => s
  | s :: rest => s ++ sep :: joinWithChar sep rest

/-- Segment processing of Node's `path.posix.normalize`: drop empty and `.`
segments; `..` pops the previous segment, or (for relative paths,
`allowUp = true`) is kept when there is nothing left to pop. `acc` is the
stack of processed segments in reverse order. -/
def normSegs (allowUp : Bool) : List Str → List Str → List Str
  | [], acc => acc.reverse
  | s :: rest, acc =>
    if s = [] ∨ s = ['.'] then normSegs allowUp rest acc
    else if s = ['.', '.'] then
      match acc with
      | [] => normSegs allowUp rest (if allowUp then [s] else [])
      | t :: acc' =>
        if t = ['.', '.'] then normSegs allowUp rest (s :: t :: acc')
        else normSegs allowUp rest acc'
    else normSegs allowUp rest (s :: acc)

/-- Node `path.posix.normalize`. -/
def normalizePath (p : Str) : Str :=
  if p = [] then ['.']
  else
    let isAbs := p.head? = some '/'
    let trail := p.getLast? = some '/'
    let core := joinWithChar '/' (normSegs (!isAbs) (splitOnChar '/' p) [])
    let core := if core = [] ∧ ¬isAbs then ['.'] else core
    let core := if core ≠ [] ∧ trail then core ++ ['/'] else core
    if isAbs then '/' :: core else core

/-- Node `path.posix.join` restricted to two arguments, as used by the source
(`path.join(a, b)`). -/
def pathJoin (a b : Str) : Str :=
  match ([a, b].filter (fun s => ¬ s = [])) with
  | [] => ['.']
  | parts => normalizePath (joinWithChar '/' parts)

/-- Node `path.posix.dirname`. -/
def dirname (p : Str) : Str :=
  if p = [] then ['.']
  else
    let isAbs := p.head? = some '/'
    let q := (p.reverse.dropWhile (fun c => c = '/')).reverse
    if q.all (fun c => ¬ c = '/') then (if isAbs then ['/'] else ['.'])
    else
      let base := (q.reverse.takeWhile (fun c => ¬ c = '/')).reverse
      let d := q.take (q.length - base.length - 1)
      if d = [] then ['/'] else d

/-- Node `path.posix.isAbsolute`. -/
def isAbsolute (p : Str) : Bool := p.head? = some '/'

/-! ## The special-location table (`specialPaths`, commands.js lines 49-62) -/

/-- Models `CONFIG_DIR = path.join(os.homedir(), '.pawkit')`; `home` stands for
`os.homedir()`. -/
def configDir (home : Str) : Str := pathJoin home (str ".pawkit")

/-- The `pluginmetadata` directory inside the engine's config dir
(`path.join(CONFIG_DIR, 'pluginmetadata')`, line 1456). -/
def pluginMetaDir (home : Str) : Str := pathJoin (configDir home) (str "pluginmetadata")

/-- The `specialPaths` marker table (lines 49-62), in source order. -/
def specialPaths (home : Str) : List (Str × Str) :=
  [ (str "@userhome", home),
    (str "@documents", pathJoin home (str "Documents")),
    (str "@document", pathJoin home (str "Documents")),
    (str "@docs", pathJoin home (str "Documents")),
    (str "@applicationSupport", pathJoin (pathJoin home (str "Library")) (str "Application Support")),
    (str "@applicationsupport", pathJoin (pathJoin home (str "Library")) (str "Application Support")),
    (str "@desktop", pathJoin home (str "Desktop")),
    (str "@downloads", pathJoin home (str "Downloads")),
    (str "@applications", str "/Applications"),
    (str "@userapplications", pathJoin home (str "/Applications")),
    (str "@library", pathJoin home (str "Library")),
    (str "@preferences", pathJoin (pathJoin home (str "Library")) (str "Preferences")) ]

/-! ## Filesystem model

An association list from absolute paths to filesystem objects.  The earliest
entry for a path wins; operations that replace an entry filter out the old
key.  Symlink objects record the raw target string, as `fs.symlinkSync`
stores it. -/

/-- A filesystem object: regular file, directory, or symbolic link. -/
inductive FSObj
  | file
  | dir
  | symlink (target : Str)
  deriving DecidableEq, Repr

/-- The filesystem: association list path ↦ object. -/
abbrev FS := List (Str × FSObj)

/-- Look up the object stored at a path (`fs.lstatSync` / `fs.readlinkSync`
level: does not follow links). -/
def fsLookup : FS → Str → Option FSObj
  | [], _ => none
  | (q, o) :: rest, p => if q = p then some o else fsLookup rest p

/-- Drop every entry stored exactly at `p`. -/
def fsRemoveEntry (fs : FS) (p : Str) : FS := fs.filter (fun e => ¬ e.1 = p)

/-- Models `fs.existsSync` follows symlink chains; fuel bounds chain length (a cycle
or over-long chain produces `ELOOP`, i.e. `false`, exactly as `existsSync`
reports). -/
def existsFollow (fs : FS) : Nat → Str → Bool
  | 0, _ => false
  | fuel + 1, p =>
    match fsLookup fs p with
    | none => false
    | some .file => true
    | some .dir => true
    | some (.symlink t) => existsFollow fs fuel t

/-- Models `fs.existsSync`. -/
def existsS (fs : FS) (p : Str) : Bool := existsFollow fs (fs.length + 1) p

/-- Filesystem operation errors surfaced by the Node APIs the source calls. -/
inductive FsErr
  | eperm   -- unlink on a directory
  | eexist  -- symlink target path already occupied (lstat-level)
  | enoent
  deriving DecidableEq, Repr

/-- Models `fs.unlinkSync`: removes a file or symlink entry; fails on a directory. -/
def unlink (fs : FS) (p : Str) : Except FsErr FS :=
  match fsLookup fs p with
  | none => .error .enoent
  | some .dir => .error .eperm
  | some _ => .ok (fsRemoveEntry fs p)

/-- Models `fs.symlinkSync target p`: fails with `EEXIST` when anything (even a
dangling symlink) is already present at `p` at the lstat level. -/
def symlinkCreate (fs : FS) (target p : Str) : Except FsErr FS :=
  match fsLookup fs p with
  | some _ => .error .eexist
  | none => .ok ((p, .symlink target) :: fs)

/-- Models `fs.copyFileSync _ p`: writes (or overwrites) a regular file at `p`.
File contents and permission bits are not tracked by the model. -/
def copyFileTo (fs : FS) (p : Str) : FS := (p, .file) :: fsRemoveEntry fs p

/-- Models `fs-extra.ensureDirSync`: creates the directory if no entry is present.
Ancestor directories of the paths the source passes here already exist
(`CONFIG_DIR` is created at module load), so only the leaf is recorded. -/
def ensureDir (fs : FS) (d : Str) : FS :=
  match fsLookup fs d with
  | some _ => fs
  | none => (d, .dir) :: fs

/-- Recursive removal (`rm -rf` / `fs.removeSync` / `fs.promises.rm`):
removes the path and everything below it; a missing path is not an error. -/
def removeRec (fs : FS) (root : Str) : FS :=
  fs.filter (fun e => ¬ (e.1 = root ∨ strPre (root ++ ['/']) e.1 = true))

/-- Models `fs.readlinkSync` (returns the stored target of a symlink entry). -/
def readLink (fs : FS) (p : Str) : Option Str :=
  match fsLookup fs p with
  | some (.symlink t) => some t
  | _ => none

/-! ## The path resolver (`cleanAndMapPath`, commands.js lines 1408-1472) -/

/-- JS `\w` character class (ASCII letters, digits, underscore). -/
def isWordChar (c : Char) : Bool := c.isAlpha || c.isDigit || c = '_'

/-- Models `entryPath.replace(/\\/g, '/')`. -/
def toSlashes (s : Str) : Str := s.map (fun c => if c = '\\' then '/' else c)

/-- The `^[\/\.]+` half of the cleanup regex: strip the leading run of
slashes and dots (anchored, so it fires at most once, at position 0). -/
def dropJunkLead (s : Str) : Str := s.dropWhile (fun c => c = '/' || c = '.')

/-- Fuel-driven worker for `stripMacosx`; the fuel only needs to cover the
string length, so the `0` case is unreachable at the call below. -/
def stripMacosxFuel : Nat → Str → Str
  | 0, s => s
  | _ + 1, [] => []
  | fuel + 1, c :: rest =>
    if strPre (str "__MACOSX/") (c :: rest) then stripMacosxFuel fuel ((c :: rest).drop 9)
    else c :: stripMacosxFuel fuel rest

/-- The `__MACOSX\/` half of the cleanup regex with the `g` flag: remove
every occurrence in a single left-to-right pass without rescanning the
spliced result, exactly as `String.replace` does. -/
def stripMacosx (s : Str) : Str := stripMacosxFuel s.length s

/-- First match of the regex `(@\w+)\//`: scan left to right; at a position
holding `@`, a nonempty maximal run of word characters must be followed by
`/`; on failure the scan advances one character (JS regex scanning). The
returned string is the captured `@`-token. -/
def findAtToken : Str → Option Str
  | [] => none
  | c :: rest =>
    if c = '@' then
      match rest.takeWhile isWordChar with
      | [] => findAtToken rest
      | r :: un =>
        if (rest.drop (r :: un).length).head? = some '/' then some ('@' :: r :: un)
        else findAtToken rest
    else findAtToken rest

/-- Models `s.substring(s.indexOf(pat))`: the suffix starting at the first
occurrence of `pat` (the empty string when `pat` does not occur; the source
only calls this when the occurrence exists). -/
def dropToFirstOcc (pat : Str) : Str → Str
  | [] => []
  | c :: rest => if strPre pat (c :: rest) then c :: rest else dropToFirstOcc pat rest

/-- Models `s.substring(0, s.indexOf(pat))`: the prefix before the first
occurrence. -/
def takeToFirstOcc (pat : Str) : Str → Str
  | [] => []
  | c :: rest => if strPre pat (c :: rest) then [] else c :: takeToFirstOcc pat rest

/-- Models `s.replace(pat, '')` with a plain-string pattern: remove the first
occurrence only. -/
def removeFirstOcc (pat : Str) : Str → Str
  | [] => []
  | c :: rest =>
    if strPre pat (c :: rest) then (c :: rest).drop pat.length
    else c :: removeFirstOcc pat rest

/-- Models `s.replace(pat, repl)` with a plain-string pattern: replace the first
occurrence only. -/
def replaceFirst (pat repl : Str) : Str → Str
  | [] => []
  | c :: rest =>
    if strPre pat (c :: rest) then repl ++ (c :: rest).drop pat.length
    else c :: replaceFirst pat repl rest

/-- The marker-mapping loop of `cleanAndMapPath` (lines 1440-1447): the first
table entry whose `marker + '/'` is a prefix of the mapped path wins, and
the destination is `path.join(base, remainder)`. -/
def lookupSpecial : List (Str × Str) → Str → Option Str
  | [], _ => none
  | (tok, base) :: rest, mp =>
    if strPre (tok ++ ['/']) mp then some (pathJoin base (mp.drop (tok.length + 1)))
    else lookupSpecial rest mp

/-- The `@all/`-stripping step (lines 1431-1434). -/
def stripAll (mapped0 : Str) : Str :=
  if strPre (str "@all/") mapped0 then mapped0.drop 5 else mapped0

/-- The marker half of `cleanAndMapPath` (lines 1421-1448): find the first
`@`-token, take the path from the first occurrence of that token, strip one
leading `@all/`, and look the result up in the table. -/
def viaMarker (home : Str) (cleanPath : Str) : Option Str :=
  match findAtToken cleanPath with
  | none => none
  | some atTok => lookupSpecial (specialPaths home) (stripAll (dropToFirstOcc atTok cleanPath))

/-- Models `cleanAndMapPath(entryPath)` (lines 1408-1472).  Returns the resolved
destination (`none` = the path is rejected with `null`) together with the
filesystem after the call: the metadata branch runs
`fs.ensureDirSync(metadataDir)` (line 1457), so resolution can create the
`pluginmetadata` directory. -/
def cleanAndMapPath (home : Str) (fs : FS) (entryPath : Str) : Option Str × FS :=
  let cleanPath := stripMacosx (dropJunkLead (toSlashes entryPath))
  match viaMarker home cleanPath with
  | some dest => (some dest, fs)
  | none =>
    if containsSubstr (str "metadata/") cleanPath then
      let metadataPath := dropToFirstOcc (str "metadata/") cleanPath
      (some (pathJoin (pluginMetaDir home) (removeFirstOcc (str "metadata/") metadataPath)),
       ensureDir fs (pluginMetaDir home))
    else (none, fs)

/-! ## The install pipeline (`installFromFile`, commands.js lines 154-760)

The model covers the pipeline from the point where the scratch workspace is
created (line 169) to the end of the function, on a non-darwin platform:
archive extraction itself is summarized by the input entry list (its shape is
what `readDir` at lines 276-320 produces), `ditto`-based app-bundle handling
is skipped exactly as the source skips it off macOS (lines 553-563), and the
`ensureProperSymlinkAttributes` call is the non-darwin no-op of line 20.
File contents, permission modes and the `installDate` timestamp are not
observable in the model. -/

/-- One extracted archive entry as built by `readDir` (lines 276-320):
`entryName` is the slash-normalized relative path; for symlinks,
`linkTarget` is the raw `readlinkSync` result and `resolvedTarget` its
absolute resolution (equal to `linkTarget` when that is absolute).  For
non-symlinks `linkTarget` is empty. -/
structure Entry where
  entryName : Str
  isSymlink : Bool
  linkTarget : Str
  resolvedTarget : Str
  deriving DecidableEq, Repr

/-- One planned installation (`installPaths` element, lines 399-405), with
the scratch-source fields elided (contents are not modelled). -/
structure PlanFile where
  target : Str
  isSymlink : Bool
  linkTarget : Str
  resolvedTarget : Str
  deriving DecidableEq, Repr

/-- The macOS system-junk filter of lines 329-335. -/
def isSysJunk (name : Str) : Bool :=
  containsSubstr (str "__MACOSX") name || strSuffix (str ".DS_Store") name ||
    containsSubstr (str "/._") name

/-- The `osFiles` filter (lines 329-351): drop system junk, then keep the
entries `cleanAndMapPath` maps to a destination.  `cleanAndMapPath` is called
per entry, so its `ensureDirSync` side effect threads through the
filesystem. -/
def filterValid (home : Str) : FS → List Entry → List Entry × FS
  | fs, [] => ([], fs)
  | fs, e :: rest =>
    if isSysJunk e.entryName then filterValid home fs rest
    else
      let (res, fs') := cleanAndMapPath home fs e.entryName
      let (tail, fs'') := filterValid home fs' rest
      match res with
      | some _ => (e :: tail, fs'')
      | none => (tail, fs'')

/-- The `filesWithPotentialPrefixes` filter of lines 358-372 (used only to
choose between the two "nothing to install" errors). -/
def nonJunkNonMeta (entries : List Entry) : List Entry :=
  entries.filter (fun e => !isSysJunk e.entryName && !strPre (str "metadata/") e.entryName)

/-- The `installPaths` construction (lines 399-405): map each kept entry to
its destination (calling `cleanAndMapPath` again) and drop `null` targets. -/
def mkInstallPaths (home : Str) : FS → List Entry → List PlanFile × FS
  | fs, [] => ([], fs)
  | fs, e :: rest =>
    let (res, fs') := cleanAndMapPath home fs e.entryName
    let (tail, fs'') := mkInstallPaths home fs' rest
    match res with
    | some t =>
      ({ target := t, isSymlink := e.isSymlink, linkTarget := e.linkTarget,
         resolvedTarget := e.resolvedTarget } :: tail, fs'')
    | none => (tail, fs'')

/-- The `existingFiles` conflict scan (lines 414-421): a destination is a
conflict when it exists on disk and is not inside the engine's
`pluginmetadata` directory.  One occurrence is pushed per plan entry. -/
def existingOf (home : Str) (fs : FS) (plan : List PlanFile) : List Str :=
  (plan.filter (fun f =>
      existsS fs f.target && !containsSubstr (pluginMetaDir home) f.target)).map (·.target)

/-- The display de-duplication of lines 446-455 (`uniqueInstallPaths`):
keep the first plan entry per destination.  It feeds only the confirmation
printout. -/
def uniqueByTargetGo (seen : List Str) : List PlanFile → List PlanFile
  | [] => []
  | f :: rest =>
    if f.target ∈ seen then uniqueByTargetGo seen rest
    else f :: uniqueByTargetGo (f.target :: seen) rest

/-- Models `uniqueInstallPaths` (lines 446-455). -/
def uniqueByTarget (plan : List PlanFile) : List PlanFile := uniqueByTargetGo [] plan

/-- Models `Array.from(new Set(list))` on strings: de-duplicate keeping the first
occurrence (fuel-driven so the kernel can evaluate it). -/
def dedupKeepFirstFuel : Nat → List Str → List Str
  | 0, l => l
  | _ + 1, [] => []
  | fuel + 1, s :: rest => s :: dedupKeepFirstFuel fuel (rest.filter (fun t => ¬ t = s))

/-- Models `Array.from(new Set(list))` (insertion order, first occurrence wins). -/
def dedupKeepFirst (l : List Str) : List Str := dedupKeepFirstFuel l.length l

/-- The string handed to `fs.symlinkSync` (lines 617-643): the original
target for a relative link, the resolved target for an absolute one, with
the `file.resolvedTarget || linkTarget` fallback of line 618. -/
def symTargetOf (f : PlanFile) : Str :=
  if isAbsolute f.linkTarget then
    (if f.resolvedTarget = [] then f.linkTarget else f.resolvedTarget)
  else f.linkTarget

/-- The per-entry materialization after the parent directory exists (lines
610-724): recreate a symlink — removing a pre-existing destination only when
`existsSync`, which follows links, reports it — or copy the file bytes. -/
def installOneFileAt (fs : FS) (f : PlanFile) : Option FsErr × FS :=
  if f.isSymlink = true ∧ ¬ f.linkTarget = [] then
    match (if existsS fs f.target then unlink fs f.target else .ok fs) with
    | .error e => (some e, fs)
    | .ok fs' =>
      match symlinkCreate fs' (symTargetOf f) f.target with
      | .error e => (some e, fs')
      | .ok fs'' => (none, fs'')
  else
    (none, copyFileTo fs f.target)

/-- Materialize one plan entry (the loop body, lines 591-725): ensure the
parent directory, then recreate the symlink or copy the file.  Returns the
error that aborts the install, if any, plus the filesystem reached. -/
def installOneFile (fs : FS) (f : PlanFile) : Option FsErr × FS :=
  installOneFileAt (ensureDir fs (dirname f.target)) f

/-- The materialization loop (lines 591-725): the first failure rethrows and
halts the run; files already written stay on disk. -/
def installFiles : FS → List PlanFile → Option FsErr × FS
  | fs, [] => (none, fs)
  | fs, f :: rest =>
    match installOneFile fs f with
    | (some e, fs') => (some e, fs')
    | (none, fs') => installFiles fs' rest

/-- Models `installedFiles` (lines 728-731): resolve the kept entries once more and
de-duplicate via a `Set`. -/
def mapTargets (home : Str) : FS → List Entry → List Str × FS
  | fs, [] => ([], fs)
  | fs, e :: rest =>
    let (res, fs') := cleanAndMapPath home fs e.entryName
    let (tail, fs'') := mapTargets home fs' rest
    ((match res with | some t => t :: tail | none => tail), fs'')

/-- The manifest (`paws.json`'s `installed` object): name ↦ record. -/
structure PawRecord where
  version : Str
  files : List Str
  deletePaths : List Str
  deriving DecidableEq, Repr

/-- Models `paws.installed`. -/
abbrev Manifest := List (Str × PawRecord)

/-- Read a package's record. -/
def manifestLookup : Manifest → Str → Option PawRecord
  | [], _ => none
  | (n, r) :: rest, name => if n = name then some r else manifestLookup rest name

/-- Models `paws.installed[name] = record` (line 737): whole-record replacement. -/
def manifestInsert (m : Manifest) (name : Str) (r : PawRecord) : Manifest :=
  (name, r) :: m.filter (fun e => ¬ e.1 = name)

/-- Models `delete paws.installed[name]` (line 1222). -/
def manifestErase (m : Manifest) (name : Str) : Manifest := m.filter (fun e => ¬ e.1 = name)

/-- Models `listInstalledApps` (lines 1724-1769) prints exactly the keys of
`paws.installed`; the model returns that key list. -/
def listInstalled (m : Manifest) : List Str := m.map (·.1)

/-- Caller-side install options: the `PAWKIT_FORCE_INSTALL` flag, the
`confirm_installation` config key, and the (trimmed, lowercased) reply the
user gives at the confirmation prompt. -/
structure InstallConfig where
  forceInstall : Bool
  confirmInstall : Bool
  answer : Str
  deriving DecidableEq, Repr

/-- The package descriptor fields consumed by the pipeline (from
`metadata/data.json`, with the line 184 defaults already applied). -/
structure MetaInfo where
  name : Str
  version : Str
  deletePaths : List Str
  deriving DecidableEq, Repr

/-- The errors `installFromFile` can throw after the scratch workspace
exists. -/
inductive InstallError
  | mustUseAtTokens        -- line 383
  | noValidFiles           -- lines 387/395
  | noValidTargets         -- line 410
  | conflictExisting (n : Nat)  -- line 430
  | cancelledByUser        -- line 487
  | ioFailure (e : FsErr)  -- line 723
  deriving DecidableEq, Repr

/-- Result of a run. -/
inductive InstallOutcome
  | success
  | failure (e : InstallError)
  deriving DecidableEq, Repr

/-- Observable system state: the filesystem outside the scratch area, the
manifest document, and whether the run's scratch directory currently
exists. -/
structure SysState where
  fsys : FS
  manifest : Manifest
  scratch : Bool
  deriving DecidableEq, Repr

/-- The body of the `try` block of `installFromFile` (lines 172-747), after
extraction: filter entries, plan destinations, check conflicts, ask for
confirmation, materialize, record the manifest. -/
def installBody (home : Str) (cfg : InstallConfig) (meta : MetaInfo)
    (entries : List Entry) (st : SysState) : InstallOutcome × SysState :=
  let (osFiles, fs1) := filterValid home st.fsys entries
  if osFiles = [] then
    (if ¬ nonJunkNonMeta entries = [] then .failure .mustUseAtTokens
     else .failure .noValidFiles, { st with fsys := fs1 })
  else
    let (plan, fs2) := mkInstallPaths home fs1 osFiles
    if plan = [] then (.failure .noValidTargets, { st with fsys := fs2 })
    else
      let existing := existingOf home fs2 plan
      if ¬ existing = [] ∧ cfg.forceInstall = false then
        (.failure (.conflictExisting existing.length), { st with fsys := fs2 })
      else if cfg.confirmInstall = true ∧ cfg.forceInstall = false
          ∧ ¬ cfg.answer = str "y" ∧ ¬ cfg.answer = str "yes" then
        (.failure .cancelledByUser, { st with fsys := fs2 })
      else
        match installFiles fs2 plan with
        | (some e, fs3) => (.failure (.ioFailure e), { st with fsys := fs3 })
        | (none, fs3) =>
          let (targets, fs4) := mapTargets home fs3 osFiles
          let instFiles := dedupKeepFirst targets
          (.success,
           { fsys := fs4,
             manifest := manifestInsert st.manifest meta.name
               { version := meta.version, files := instFiles, deletePaths := meta.deletePaths },
             scratch := st.scratch })

/-- Models `installFromFile` from scratch-workspace creation onward (lines
169-759): the `catch` block removes the scratch directory and rethrows;
the success path returns without any cleanup (there is no `finally`). -/
def installFromFileModel (home : Str) (cfg : InstallConfig) (meta : MetaInfo)
    (entries : List Entry) (st : SysState) : InstallOutcome × SysState :=
  let st1 : SysState := { st with scratch := true }
  match installBody home cfg meta entries st1 with
  | (.success, st') => (.success, st')
  | (.failure e, st') => (.failure e, { st' with scratch := false })

/-! ## The remover (`remove`, commands.js lines 978-1301) -/

/-- Outcome of `remove`. -/
inductive RemoveOutcome
  | notInstalled
  | removed (failed : List Str)
  deriving DecidableEq, Repr

/-- App-bundle detection on a destination path (lines 1001-1012): a path
containing `.app/Contents/` belongs to the bundle rooted at the substring
up to and including the *first* occurrence of `.app`. -/
def appBundleRoot (p : Str) : Option Str :=
  if containsSubstr (str ".app/Contents/") p then
    some (takeToFirstOcc (str ".app") p ++ str ".app")
  else none

/-- Models `deletePath.replace(/^~\//, home + '/')` (line 1068). -/
def tildeExpand (home : Str) (p : Str) : Str :=
  if strPre (str "~/") p then home ++ '/' :: p.drop 2 else p

/-- The special-path substitution loop of lines 1071-1075: for each table
entry whose key occurs in the path, replace its first occurrence with the
base directory. -/
def substSpecials : List (Str × Str) → Str → Str
  | [], p => p
  | (k, v) :: rest, p =>
    substSpecials rest (if containsSubstr k p then replaceFirst k v p else p)

/-- Immediate children of a directory (`fs.readdirSync` joined back onto the
directory, lines 1132-1141). -/
def childrenOf (fs : FS) (p : Str) : List Str :=
  (fs.map (·.1)).filter (fun q =>
    strPre (p ++ ['/']) q && (q.drop (p.length + 1)).all (fun c => ¬ c = '/'))

/-- One recursive deletion attempt; `delFail` says which paths the
platform's delete (native `rm -rf`, `fs.removeSync`, `fs.promises.rm`, or
the elevated sequence) fails to remove.  Failures are collected, never
thrown (lines 1032-1058, 1166-1198). -/
def tryDelete (delFail : Str → Bool) (fs : FS) (failed : List Str) (p : Str) :
    FS × List Str :=
  if delFail p then (fs, failed ++ [p]) else (removeRec fs p, failed)

/-- Handling of one metadata `deletePaths` entry (lines 1066-1199): expand
`~` and marker keys, skip missing paths, and for `Application Support`
locations run the elevated-permission sequence whose post-check reports
every remaining child plus the directory itself as individually failed. -/
def removeDeletePath (home : Str) (delFail : Str → Bool) (fs : FS) (failed : List Str)
    (dp : Str) : FS × List Str :=
  let p := substSpecials (specialPaths home) (tildeExpand home dp)
  if existsS fs p = false then (fs, failed)
  else if containsSubstr (str "Application Support") p then
    if delFail p then (fs, failed ++ childrenOf fs p ++ [p])
    else (removeRec fs p, failed)
  else tryDelete delFail fs failed p

/-- Models `remove(pawName)` (lines 978-1301): look up the record; remove app
bundles as units, then metadata-declared auxiliary paths, then remaining
individual files (skipping those inside a removed bundle); finally delete
the manifest record — even when deletions failed. -/
def removeModel (home : Str) (delFail : Str → Bool) (manifest : Manifest) (fs : FS)
    (pawName : Str) : RemoveOutcome × Manifest × FS :=
  match manifestLookup manifest pawName with
  | none => (.notInstalled, manifest, fs)
  | some info =>
    let bundles := dedupKeepFirst (info.files.filterMap appBundleRoot)
    let s1 := bundles.foldl (fun (acc : FS × List Str) root =>
      if existsS acc.1 root then tryDelete delFail acc.1 acc.2 root else acc) (fs, [])
    let s2 := info.deletePaths.foldl (fun (acc : FS × List Str) dp =>
      removeDeletePath home delFail acc.1 acc.2 dp) s1
    let s3 := info.files.foldl (fun (acc : FS × List Str) file =>
      if bundles.any (fun r => strPre r file) then acc
      else tryDelete delFail acc.1 acc.2 file) s2
    (.removed s3.2, manifestErase manifest pawName, s3.1)

/-! ## Version comparison (`compareVersions`, commands.js lines 1666-1681) -/

/-- Whether a path would survive the resolver's leading-junk strip
unchanged: it is empty or does not start with a slash or a dot. -/
def headOkay : Str → Bool
  | [] => true
  | c :: _ => ¬ (c = '/' ∨ c = '.')

/-- Plain association lookup by key in a marker table. -/
def lookupFirstKey : List (Str × Str) → Str → Option Str
  | [], _ => none
  | (k, v) :: rest, m => if k = m then some v else lookupFirstKey rest m

/-!  ## Helper lemmas about the string primitives -/

lemma strPre_iff (a : Str) : ∀ s : Str, strPre a s = true ↔ a <+: s := by
  induction a with
  | nil => intro s; simp [strPre]
  | cons c as ih =>
    intro s
    cases s with
    | nil => simp [strPre]
    | cons b bs =>
      simp only [strPre, List.cons_prefix_cons]
      by_cases h : c = b
      · simp [h, ih]
      · simp [h]

lemma strPre_append_self (a x : Str) : strPre a (a ++ x) = true :=
  (strPre_iff a (a ++ x)).mpr (List.prefix_append a x)

lemma strPre_sep_false (tok m r : Str)
    (h1 : strPre (tok ++ ['/']) (m ++ ['/']) = false)
    (h2 : strPre (m ++ ['/']) (tok ++ ['/']) = false) :
    strPre (tok ++ ['/']) (m ++ '/' :: r) = false := by
  by_contra h
  rw [Bool.not_eq_false, strPre_iff] at h
  have hsplit : m ++ '/' :: r = (m ++ ['/']) ++ r := by simp
  rw [hsplit] at h
  rcases le_or_lt (tok.length + 1) (m.length + 1) with hle | hlt
  · have h' := List.prefix_of_prefix_length_le h (List.prefix_append (m ++ ['/']) r)
      (by simpa using hle)
    rw [← strPre_iff, h1] at h'
    cases h'
  · have h' := List.prefix_of_prefix_length_le (List.prefix_append (m ++ ['/']) r) h
      (by simp; omega)
    rw [← strPre_iff, h2] at h'
    cases h'

lemma containsSubstr_append_right (pat t s : Str) (h : containsSubstr pat s = true) :
    containsSubstr pat (t ++ s) = true := by
  induction t with
  | nil => simpa
  | cons c t ih =>
    show (strPre pat (c :: (t ++ s)) || containsSubstr pat (t ++ s)) = true
    rw [ih]
    simp

lemma containsSubstr_dropWhile_false (pat : Str) (p : Char → Bool) (l : Str)
    (h : containsSubstr pat l = false) : containsSubstr pat (l.dropWhile p) = false := by
  by_contra hc
  rw [Bool.not_eq_false] at hc
  have h2 := containsSubstr_append_right pat (l.takeWhile p) _ hc
  rw [List.takeWhile_append_dropWhile, h] at h2
  cases h2

lemma mem_of_mem_dropWhile (p : Char → Bool) (l : Str) (c : Char)
    (h : c ∈ l.dropWhile p) : c ∈ l := by
  have := List.takeWhile_append_dropWhile (p := p) (l := l)
  rw [← this]
  exact List.mem_append_right _ h

lemma containsSubstr_of_pre (pat s : Str) (hp : ¬ pat = []) (h : strPre pat s = true) :
    containsSubstr pat s = true := by
  cases s with
  | nil =>
    cases pat with
    | nil => exact absurd rfl hp
    | cons c cs => simp [strPre] at h
  | cons c rest =>
    show (strPre pat (c :: rest) || containsSubstr pat rest) = true
    rw [h]
    simp

lemma stripMacosxFuel_eq_self :
    ∀ (fuel : Nat) (s : Str), containsSubstr (str "__MACOSX/") s = false →
      stripMacosxFuel fuel s = s := by
  intro fuel
  induction fuel with
  | zero => intro s _; rfl
  | succ fuel ih =>
    intro s h
    cases s with
    | nil => rfl
    | cons c rest =>
      have h' : (strPre (str "__MACOSX/") (c :: rest) || containsSubstr (str "__MACOSX/") rest)
          = false := h
      rw [Bool.or_eq_false_iff] at h'
      show (if strPre (str "__MACOSX/") (c :: rest) = true then _ else _) = _
      rw [if_neg (by simp [h'.1])]
      rw [ih rest h'.2]

lemma stripMacosx_eq_self (s : Str) (h : containsSubstr (str "__MACOSX/") s = false) :
    stripMacosx s = s := stripMacosxFuel_eq_self s.length s h

lemma toSlashes_eq_self (s : Str) (h : ∀ c ∈ s, ¬ c = '\\') : toSlashes s = s := by
  induction s with
  | nil => rfl
  | cons c rest ih =>
    show (if c = '\\' then '/' else c) :: toSlashes rest = c :: rest
    rw [if_neg (h c (List.mem_cons_self c rest)), ih (fun x hx => h x (List.mem_cons_of_mem c hx))]

lemma dropJunkLead_eq_self (s : Str) (h : headOkay s = true) : dropJunkLead s = s := by
  cases s with
  | nil => rfl
  | cons c rest =>
    have h' : ¬ (c = '/' ∨ c = '.') := by simpa [headOkay] using h
    rcases not_or.mp h' with ⟨h1, h2⟩
    simp [dropJunkLead, List.dropWhile_cons, h1, h2]

lemma clean_id (s : Str) (h1 : ∀ c ∈ s, ¬ c = '\\') (h2 : headOkay s = true)
    (h3 : containsSubstr (str "__MACOSX/") s = false) :
    stripMacosx (dropJunkLead (toSlashes s)) = s := by
  rw [toSlashes_eq_self s h1, dropJunkLead_eq_self s h2, stripMacosx_eq_self s h3]

lemma findAtToken_none (s : Str) (h : '@' ∉ s) : findAtToken s = none := by
  induction s with
  | nil => rfl
  | cons c rest ih =>
    have hc : ¬ c = '@' := fun hh => h (hh ▸ List.mem_cons_self c rest)
    have ht := ih (fun hm => h (List.mem_cons_of_mem c hm))
    simp only [findAtToken, if_neg hc]
    exact ht

lemma findAtToken_append (w s : Str) (hw : '@' ∉ w) :
    findAtToken (w ++ s) = findAtToken s := by
  induction w with
  | nil => rfl
  | cons c w' ih =>
    have hc : ¬ c = '@' := fun hh => hw (hh ▸ List.mem_cons_self c w')
    have ht := ih (fun hm => hw (List.mem_cons_of_mem c hm))
    simp only [List.cons_append, findAtToken, if_neg hc]
    exact ht

lemma takeWhile_all_stop (p : Char → Bool) :
    ∀ (a : Str) (c : Char) (t : Str), (∀ x ∈ a, p x = true) → p c = false →
      (a ++ c :: t).takeWhile p = a := by
  intro a
  induction a with
  | nil => intro c t _ hc; simp [List.takeWhile_cons, hc]
  | cons x a ih =>
    intro c t ha hc
    have hx : p x = true := ha x (List.mem_cons_self x a)
    simp only [List.cons_append, List.takeWhile_cons, hx, if_true]
    rw [ih c t (fun y hy => ha y (List.mem_cons_of_mem x hy)) hc]

lemma findAtToken_marker (mt r : Str) (h1 : ∀ c ∈ mt, isWordChar c = true)
    (h2 : ¬ mt = []) :
    findAtToken ('@' :: (mt ++ '/' :: r)) = some ('@' :: mt) := by
  have htw : (mt ++ '/' :: r).takeWhile isWordChar = mt :=
    takeWhile_all_stop isWordChar mt '/' r h1 (by decide)
  cases mt with
  | nil => exact absurd rfl h2
  | cons m0 mrest =>
    simp only [findAtToken, if_pos rfl]
    rw [htw]
    have hd : ((m0 :: mrest) ++ '/' :: r).drop (m0 :: mrest).length = '/' :: r :=
      List.drop_left _ _
    simp only [hd]
    rfl

lemma dropToFirstOcc_of_pre (pat s : Str) (hp : ¬ pat = []) (h : strPre pat s = true) :
    dropToFirstOcc pat s = s := by
  cases s with
  | nil =>
    cases pat with
    | nil => exact absurd rfl hp
    | cons c cs => simp [strPre] at h
  | cons c rest => simp [dropToFirstOcc, h]

lemma dropToFirstOcc_append (pat w s : Str) (hpat : pat.head? = some '@')
    (hw : '@' ∉ w) : dropToFirstOcc pat (w ++ s) = dropToFirstOcc pat s := by
  induction w with
  | nil => rfl
  | cons c w' ih =>
    have hc : ¬ c = '@' := fun hh => hw (hh ▸ List.mem_cons_self c w')
    have hfalse : strPre pat (c :: (w' ++ s)) = false := by
      cases pat with
      | nil => simp at hpat
      | cons p ps =>
        have hp : p = '@' := by simpa using hpat
        subst hp
        simp only [strPre]
        rw [if_neg (fun hh => hc hh.symm)]
    simp only [List.cons_append, dropToFirstOcc, List.append_eq]
    rw [hfalse]
    simp only [Bool.false_eq_true, if_false]
    exact ih (fun hm => hw (List.mem_cons_of_mem c hm))

lemma lookupSpecial_cons_eq (tok base : Str) (rest : List (Str × Str)) (r : Str) :
    lookupSpecial ((tok, base) :: rest) (tok ++ '/' :: r) = some (pathJoin base r) := by
  have hsplit : tok ++ '/' :: r = (tok ++ ['/']) ++ r := by simp
  have hp : strPre (tok ++ ['/']) (tok ++ '/' :: r) = true := by
    rw [hsplit]; exact strPre_append_self _ _
  have hd : (tok ++ '/' :: r).drop (tok.length + 1) = r := by
    rw [hsplit]
    have hl : (tok ++ ['/']).length = tok.length + 1 := by simp
    rw [← hl, List.drop_left]
  simp only [lookupSpecial, hp, if_true, hd]

lemma lookupSpecial_cons_ne (tok base : Str) (rest : List (Str × Str)) (m r : Str)
    (h1 : strPre (tok ++ ['/']) (m ++ ['/']) = false)
    (h2 : strPre (m ++ ['/']) (tok ++ ['/']) = false) :
    lookupSpecial ((tok, base) :: rest) (m ++ '/' :: r) = lookupSpecial rest (m ++ '/' :: r) := by
  simp only [lookupSpecial, strPre_sep_false tok m r h1 h2, Bool.false_eq_true, if_false]

lemma lookupSpecial_first :
    ∀ (table : List (Str × Str)) (m b r : Str),
      lookupFirstKey table m = some b →
      (∀ p ∈ table, ¬ p.1 = m →
        strPre (p.1 ++ ['/']) (m ++ ['/']) = false ∧
        strPre (m ++ ['/']) (p.1 ++ ['/']) = false) →
      lookupSpecial table (m ++ '/' :: r) = some (pathJoin b r) := by
  intro table
  induction table with
  | nil => intro m b r hkey _; simp [lookupFirstKey] at hkey
  | cons e rest ih =>
    intro m b r hkey hsep
    obtain ⟨tok, base⟩ := e
    by_cases hk : tok = m
    · subst hk
      rw [lookupFirstKey, if_pos rfl] at hkey
      have hb : base = b := by injection hkey
      subst hb
      exact lookupSpecial_cons_eq tok base rest r
    · have hs := hsep (tok, base) (List.mem_cons_self _ _) hk
      rw [lookupSpecial_cons_ne tok base rest m r hs.1 hs.2]
      refine ih m b r ?_ (fun p hp => hsep p (List.mem_cons_of_mem _ hp))
      rw [lookupFirstKey, if_neg hk] at hkey
      exact hkey

/-!  ## Helper lemmas about the filesystem model -/

lemma fsLookup_cons_ne (fs : FS) (q p : Str) (o : FSObj) (h : ¬ q = p) :
    fsLookup ((q, o) :: fs) p = fsLookup fs p := by
  simp [fsLookup, h]

lemma fsLookup_cons_self (fs : FS) (q : Str) (o : FSObj) :
    fsLookup ((q, o) :: fs) q = some o := by
  simp [fsLookup]

lemma removeEntry_cons_self (rest : FS) (q : Str) (o : FSObj) :
    fsRemoveEntry ((q, o) :: rest) q = fsRemoveEntry rest q := by
  simp [fsRemoveEntry]

lemma removeEntry_cons_ne (rest : FS) (k q : Str) (o : FSObj) (h : ¬ k = q) :
    fsRemoveEntry ((k, o) :: rest) q = (k, o) :: fsRemoveEntry rest q := by
  simp [fsRemoveEntry, List.filter_cons, h]

lemma fsLookup_removeEntry_ne (fs : FS) (q p : Str) (h : ¬ q = p) :
    fsLookup (fsRemoveEntry fs q) p = fsLookup fs p := by
  induction fs with
  | nil => rfl
  | cons e rest ih =>
    obtain ⟨k, o⟩ := e
    by_cases hk : k = q
    · subst hk
      rw [removeEntry_cons_self, ih, fsLookup_cons_ne rest k p o h]
    · rw [removeEntry_cons_ne rest k q o hk]
      by_cases hkp : k = p
      · subst hkp; simp [fsLookup]
      · rw [fsLookup_cons_ne _ k p o hkp, fsLookup_cons_ne rest k p o hkp]
        exact ih

lemma fsLookup_removeEntry_self (fs : FS) (q : Str) :
    fsLookup (fsRemoveEntry fs q) q = none := by
  induction fs with
  | nil => rfl
  | cons e rest ih =>
    obtain ⟨k, o⟩ := e
    by_cases hk : k = q
    · subst hk
      rw [removeEntry_cons_self]
      exact ih
    · rw [removeEntry_cons_ne rest k q o hk, fsLookup_cons_ne _ k q o hk]
      exact ih

lemma ensureDir_idem (fs : FS) (d : Str) : ensureDir (ensureDir fs d) d = ensureDir fs d := by
  unfold ensureDir
  cases h : fsLookup fs d with
  | some o => simp [h]
  | none => simp [h, fsLookup_cons_self]

lemma fsLookup_ensureDir_ne (fs : FS) (d p : Str) (h : ¬ d = p) :
    fsLookup (ensureDir fs d) p = fsLookup fs p := by
  unfold ensureDir
  cases hl : fsLookup fs d with
  | some o => rfl
  | none => exact fsLookup_cons_ne fs d p .dir h

lemma unlink_ok_eq (fs fs' : FS) (p : Str) (h : unlink fs p = .ok fs') :
    fs' = fsRemoveEntry fs p := by
  unfold unlink at h
  cases hl : fsLookup fs p with
  | none => rw [hl] at h; cases h
  | some o =>
    cases o with
    | dir => rw [hl] at h; cases h
    | file => rw [hl] at h; injection h with h; exact h.symm
    | symlink t => rw [hl] at h; injection h with h; exact h.symm

lemma symlinkCreate_ok_eq (fs fs' : FS) (t p : Str) (h : symlinkCreate fs t p = .ok fs') :
    fs' = (p, .symlink t) :: fs := by
  unfold symlinkCreate at h
  cases hl : fsLookup fs p with
  | some o => rw [hl] at h; cases h
  | none => rw [hl] at h; injection h with h; exact h.symm

/-!  ## Claim 10: `NaN` version components compare as equal -/

/-- Counterexample to C6 as stated: resolving the path `metadata/x` from an
empty filesystem modifies the filesystem (it creates the `pluginmetadata`
directory via `fs.ensureDirSync`), so resolution is not free of filesystem
side effects. -/
theorem resolver_purity_cex :
    (cleanAndMapPath (str "/h") [] (str "metadata/x")).2
        = [(pluginMetaDir (str "/h"), .dir)]
    ∧ ¬ (cleanAndMapPath (str "/h") [] (str "metadata/x")).2 = [] := by
  constructor <;> decide

/-- Claim C6 amended: resolution is deterministic, and its only filesystem
effect is (possibly) ensuring the `pluginmetadata` directory exists when the
metadata fallback fires; resolving the same path again from the reached
state yields the same result and leaves the state unchanged. -/
theorem resolver_state_characterization : ∀ (home : Str) (fs : FS) (p : Str),
    ((cleanAndMapPath home fs p).2 = fs ∨
      (cleanAndMapPath home fs p).2 = ensureDir fs (pluginMetaDir home))
    ∧ (cleanAndMapPath home ((cleanAndMapPath home fs p).2) p).1 = (cleanAndMapPath home fs p).1
    ∧ (cleanAndMapPath home ((cleanAndMapPath home fs p).2) p).2
        = (cleanAndMapPath home fs p).2 := by
  intro home fs p
  unfold cleanAndMapPath
  cases hv : viaMarker home (stripMacosx (dropJunkLead (toSlashes p))) with
  | some dest => simp [hv]
  | none =>
    by_cases hc : containsSubstr (str "metadata/") (stripMacosx (dropJunkLead (toSlashes p))) = true
    · simp [hv, hc, ensureDir_idem]
    · have hc' : containsSubstr (str "metadata/") (stripMacosx (dropJunkLead (toSlashes p)))
          = false := Bool.eq_false_iff.mpr hc
      simp [hv, hc']

/-!  ## Claim 3: uninstall always clears the manifest record -/

lemma not_mem_listInstalled_erase (m : Manifest) (name : Str) :
    name ∉ listInstalled (manifestErase m name) := by
  intro h
  rcases List.mem_map.mp h with ⟨e, he, heq⟩
  rcases List.mem_filter.mp he with ⟨_, hkeep⟩
  rw [heq] at hkeep
  simp at hkeep

/-- Claim C3: `remove` deletes the package's record from the manifest even
when any subset of the individual deletions fails (`delFail` is an arbitrary
failure oracle), so a subsequent `list()` never contains the name; it fails
with the not-installed error — leaving the manifest untouched — exactly when
no record exists. -/
theorem remove_clears_manifest :
    ∀ (home : Str) (delFail : Str → Bool) (manifest : Manifest) (fs : FS) (name : Str),
      (manifestLookup manifest name = none →
        removeModel home delFail manifest fs name = (.notInstalled, manifest, fs))
      ∧ ∀ info, manifestLookup manifest name = some info →
          (∃ failed, (removeModel home delFail manifest fs name).1 = .removed failed)
          ∧ (removeModel home delFail manifest fs name).2.1 = manifestErase manifest name
          ∧ name ∉ listInstalled (removeModel home delFail manifest fs name).2.1 := by
  intro home delFail manifest fs name
  constructor
  · intro h
    unfold removeModel
    rw [h]
  · intro info h
    unfold removeModel
    rw [h]
    refine ⟨⟨_, rfl⟩, rfl, ?_⟩
    exact not_mem_listInstalled_erase manifest name

/-- Witness for C3: a concrete installed package whose every deletion fails
still disappears from `list()`, and removing an absent name is the
not-installed error with the manifest intact. -/
theorem remove_clears_manifest_witness :
    ((∃ failed, (removeModel (str "/h") (fun _ => true)
        [(str "P", ⟨str "1.0.0", [str "/h/Documents/x.txt"], []⟩)]
        [(str "/h/Documents/x.txt", .file)] (str "P")).1 = .removed failed)
      ∧ (removeModel (str "/h") (fun _ => true)
        [(str "P", ⟨str "1.0.0", [str "/h/Documents/x.txt"], []⟩)]
        [(str "/h/Documents/x.txt", .file)] (str "P")).2.1
          = manifestErase [(str "P", ⟨str "1.0.0", [str "/h/Documents/x.txt"], []⟩)] (str "P")
      ∧ (str "P") ∉ listInstalled ((removeModel (str "/h") (fun _ => true)
        [(str "P", ⟨str "1.0.0", [str "/h/Documents/x.txt"], []⟩)]
        [(str "/h/Documents/x.txt", .file)] (str "P")).2.1))
    ∧ removeModel (str "/h") (fun _ => true)
        [(str "P", ⟨str "1.0.0", [str "/h/Documents/x.txt"], []⟩)]
        [(str "/h/Documents/x.txt", .file)] (str "Q")
      = (.notInstalled, [(str "P", ⟨str "1.0.0", [str "/h/Documents/x.txt"], []⟩)],
         [(str "/h/Documents/x.txt", .file)]) :=
  ⟨(remove_clears_manifest (str "/h") (fun _ => true)
      [(str "P", ⟨str "1.0.0", [str "/h/Documents/x.txt"], []⟩)]
      [(str "/h/Documents/x.txt", .file)] (str "P")).2
      ⟨str "1.0.0", [str "/h/Documents/x.txt"], []⟩ (by decide),
   (remove_clears_manifest (str "/h") (fun _ => true)
      [(str "P", ⟨str "1.0.0", [str "/h/Documents/x.txt"], []⟩)]
      [(str "/h/Documents/x.txt", .file)] (str "Q")).1 (by decide)⟩

/-!  ## Claim 9: scratch-directory cleanup -/

lemma installBody_scratch (home : Str) (cfg : InstallConfig) (meta : MetaInfo)
    (entries : List Entry) (st : SysState) :
    (installBody home cfg meta entries st).2.scratch = st.scratch := by
  unfold installBody
  rcases h1 : filterValid home st.fsys entries with ⟨osFiles, fs1⟩
  rcases h2 : mkInstallPaths home fs1 osFiles with ⟨plan, fs2⟩
  rcases h3 : installFiles fs2 plan with ⟨oe, fs3⟩
  rcases h4 : mapTargets home fs3 osFiles with ⟨targets, fs4⟩
  simp only [h1, h2, h3, h4]
  cases oe <;> (repeat' split) <;> rfl

/-- Counterexample to C9 as stated: a successful install run ends with the
scratch directory still present — `installFromFile` has cleanup only in its
`catch` block, none on the success path. -/
theorem scratch_leak_on_success_cex :
    (installFromFileModel (str "/h")
      { forceInstall := true, confirmInstall := true, answer := str "n" }
      { name := str "P", version := str "1.0.0", deletePaths := [] }
      [⟨str "@documents/x.txt", false, [], []⟩] ⟨[], [], false⟩).1 = .success
    ∧ (installFromFileModel (str "/h")
      { forceInstall := true, confirmInstall := true, answer := str "n" }
      { name := str "P", version := str "1.0.0", deletePaths := [] }
      [⟨str "@documents/x.txt", false, [], []⟩] ⟨[], [], false⟩).2.scratch = true := by
  constructor <;> decide

/-- Claim C9 amended: the scratch directory created for extraction is removed
on every *error* exit of `installFromFile` (the `catch` block), but on a
successful run it is left behind — there is no cleanup on the success path. -/
theorem scratch_cleanup_on_error :
    ∀ (home : Str) (cfg : InstallConfig) (meta : MetaInfo) (entries : List Entry)
      (st : SysState),
      (∀ e, (installFromFileModel home cfg meta entries st).1 = .failure e →
        (installFromFileModel home cfg meta entries st).2.scratch = false)
      ∧ ((installFromFileModel home cfg meta entries st).1 = .success →
        (installFromFileModel home cfg meta entries st).2.scratch = true) := by
  intro home cfg meta entries st
  unfold installFromFileModel
  rcases hb : installBody home cfg meta entries { st with scratch := true } with ⟨out, st'⟩
  have hs : st'.scratch = true := by
    have h := installBody_scratch home cfg meta entries { st with scratch := true }
    rw [hb] at h
    exact h
  simp only [hb]
  cases out with
  | success =>
    constructor
    · intro e he
      exact absurd he (by simp)
    · intro _
      exact hs
  | failure e0 =>
    constructor
    · intro e _
      rfl
    · intro he
      exact absurd he (by simp)

/-- Witness for C9 amended: a failing run (no installable entries) ends with
the scratch directory removed; the successful run of the counterexample's
shape keeps it. -/
theorem scratch_cleanup_on_error_witness :
    (installFromFileModel (str "/h")
      { forceInstall := false, confirmInstall := true, answer := str "y" }
      { name := str "P", version := str "1.0.0", deletePaths := [] }
      [] ⟨[], [], false⟩).2.scratch = false
    ∧ (installFromFileModel (str "/h")
      { forceInstall := true, confirmInstall := true, answer := str "n" }
      { name := str "Q", version := str "2.0.0", deletePaths := [] }
      [⟨str "@desktop/y.txt", false, [], []⟩] ⟨[], [], false⟩).2.scratch = true :=
  ⟨(scratch_cleanup_on_error (str "/h")
      { forceInstall := false, confirmInstall := true, answer := str "y" }
      { name := str "P", version := str "1.0.0", deletePaths := [] }
      [] ⟨[], [], false⟩).1 .noValidFiles (by decide),
   (scratch_cleanup_on_error (str "/h")
      { forceInstall := true, confirmInstall := true, answer := str "n" }
      { name := str "Q", version := str "2.0.0", deletePaths := [] }
      [⟨str "@desktop/y.txt", false, [], []⟩] ⟨[], [], false⟩).2 (by decide)⟩

/-!  ## Claim 4: duplicate destinations are not collapsed in the plan -/

/-- The filesystem of the C4 counterexample: the shared destination already
exists. -/
def conflictCexFS : FS := [(str "/h/Documents/same.txt", .file)]

/-- Two archive entries resolving to the same destination
(`@documents/same.txt` and `@all/@documents/same.txt`). -/
def conflictCexEntries : List Entry :=
  [⟨str "@documents/same.txt", false, [], []⟩,
   ⟨str "@all/@documents/same.txt", false, [], []⟩]

/-- The plan those entries produce. -/
def conflictCexPlan : List PlanFile :=
  (mkInstallPaths (str "/h")
    (filterValid (str "/h") conflictCexFS conflictCexEntries).2
    (filterValid (str "/h") conflictCexFS conflictCexEntries).1).1

/-- Counterexample to C4 as stated: the two entries resolving to the same
existing destination yield *two* plan entries for it, and the conflict scan
reports that destination twice (`existingFiles` has length 2), not once. -/
theorem conflict_check_per_entry_cex :
    conflictCexPlan.map (·.target) = [str "/h/Documents/same.txt", str "/h/Documents/same.txt"]
    ∧ (existingOf (str "/h") conflictCexFS conflictCexPlan).length = 2 := by
  constructor <;> decide

lemma dedupKeepFirstFuel_mem :
    ∀ (fuel : Nat) (l : List Str) (x : Str), x ∈ dedupKeepFirstFuel fuel l → x ∈ l := by
  intro fuel
  induction fuel with
  | zero => intro l x h; exact h
  | succ fuel ih =>
    intro l x h
    cases l with
    | nil => exact h
    | cons s rest =>
      rcases List.mem_cons.mp h with rfl | h2
      · exact List.mem_cons_self _ _
      · exact List.mem_cons_of_mem s (List.mem_of_mem_filter (ih _ x h2))

lemma dedupKeepFirstFuel_nodup :
    ∀ (fuel : Nat) (l : List Str), l.length ≤ fuel → (dedupKeepFirstFuel fuel l).Nodup := by
  intro fuel
  induction fuel with
  | zero =>
    intro l h
    have hnil : l = [] := List.eq_nil_of_length_eq_zero (Nat.le_zero.mp h)
    subst hnil
    exact List.nodup_nil
  | succ fuel ih =>
    intro l h
    cases l with
    | nil => exact List.nodup_nil
    | cons s rest =>
      refine List.nodup_cons.mpr ⟨?_, ?_⟩
      · intro hmem
        have h2 := dedupKeepFirstFuel_mem fuel _ s hmem
        have h3 := List.of_mem_filter h2
        simp at h3
      · refine ih _ (le_trans (List.length_filter_le _ _) ?_)
        simpa using Nat.le_of_succ_le_succ h

lemma dedupKeepFirst_nodup (l : List Str) : (dedupKeepFirst l).Nodup :=
  dedupKeepFirstFuel_nodup l.length l (le_refl _)

lemma uniqueByTargetGo_spec :
    ∀ (l : List PlanFile) (seen : List Str),
      ((uniqueByTargetGo seen l).map (·.target)).Nodup ∧
      ∀ f ∈ uniqueByTargetGo seen l, f.target ∉ seen := by
  intro l
  induction l with
  | nil => intro seen; exact ⟨List.nodup_nil, fun f hf => by simp [uniqueByTargetGo] at hf⟩
  | cons f rest ih =>
    intro seen
    by_cases h : f.target ∈ seen
    · simp only [uniqueByTargetGo, if_pos h]
      exact ih seen
    · obtain ⟨h1, h2⟩ := ih (f.target :: seen)
      constructor
      · simp only [uniqueByTargetGo, if_neg h, List.map_cons]
        refine List.nodup_cons.mpr ⟨?_, h1⟩
        intro hmem
        rcases List.mem_map.mp hmem with ⟨g, hg, heq⟩
        exact (h2 g hg) (heq ▸ List.mem_cons_self _ _)
      · intro g hg
        simp only [uniqueByTargetGo, if_neg h] at hg
        rcases List.mem_cons.mp hg with rfl | hg2
        · exact h
        · exact fun hs => (h2 g hg2) (List.mem_cons_of_mem _ hs)

lemma existingOf_count (home : Str) (fs : FS) (d : Str) :
    ∀ plan : List PlanFile,
      (existingOf home fs plan).count d =
        plan.countP (fun f => decide (f.target = d)
          && (existsS fs f.target && !containsSubstr (pluginMetaDir home) f.target)) := by
  intro plan
  induction plan with
  | nil => rfl
  | cons f rest ih =>
    simp only [existingOf, List.filter_cons] at ih ⊢
    by_cases hq : (existsS fs f.target && !containsSubstr (pluginMetaDir home) f.target) = true
    · rw [if_pos hq, List.map_cons, List.count_cons, List.countP_cons, ih]
      by_cases hd : f.target = d
      · subst hd
        rw [Bool.and_eq_true] at hq
        have hcf : containsSubstr (pluginMetaDir home) f.target = false := by
          simpa using hq.2
        simp [hq.1, hcf]
      · simp [hd, hq]
    · have hq' : (existsS fs f.target && !containsSubstr (pluginMetaDir home) f.target)
          = false := Bool.eq_false_iff.mpr hq
      rw [if_neg hq, List.countP_cons, ih]
      simp [hq']

/-- Claim C4 amended: the installation plan keeps one entry per archive
entry — duplicate destinations are *not* collapsed — and the conflict scan
reports a destination once per plan entry that hits it; de-duplication by
destination happens only in the confirmation display (`uniqueInstallPaths`)
and in the recorded manifest file list (`Array.from(new Set(...))`), both of
which are duplicate-free. -/
theorem plan_dedup_display_only :
    ∀ (home : Str) (fs : FS) (plan : List PlanFile) (d : Str) (l : List Str),
      (existingOf home fs plan).count d =
        plan.countP (fun f => decide (f.target = d)
          && (existsS fs f.target && !containsSubstr (pluginMetaDir home) f.target))
      ∧ ((uniqueByTarget plan).map (·.target)).Nodup
      ∧ (dedupKeepFirst l).Nodup := by
  intro home fs plan d l
  exact ⟨existingOf_count home fs d plan, (uniqueByTargetGo_spec plan []).1,
    dedupKeepFirst_nodup l⟩

/-!  ## Claims 7 and 8: symlink materialization -/

lemma symTargetOf_rel (f : PlanFile) (h : isAbsolute f.linkTarget = false) :
    symTargetOf f = f.linkTarget := by
  simp [symTargetOf, h]

lemma existsFollow_fuel_mono (fs : FS) :
    ∀ (n m : Nat) (p : Str), n ≤ m → existsFollow fs n p = true → existsFollow fs m p = true := by
  intro n
  induction n with
  | zero => intro m p _ h; exact absurd h (by simp [existsFollow])
  | succ n ih =>
    intro m p hnm h
    cases m with
    | zero => exact absurd hnm (by omega)
    | succ m =>
      simp only [existsFollow] at h ⊢
      cases hl : fsLookup fs p with
      | none => rw [hl] at h; exact absurd h (by simp)
      | some o =>
        rw [hl] at h
        cases o with
        | file => rfl
        | dir => rfl
        | symlink t => exact ih m t (Nat.le_of_succ_le_succ hnm) h

lemma existsFollow_insert (fs : FS) (q : Str) (o : FSObj) (hq : fsLookup fs q = none) :
    ∀ (n : Nat) (p : Str), existsFollow fs n p = true → existsFollow ((q, o) :: fs) n p = true := by
  intro n
  induction n with
  | zero => intro p h; exact absurd h (by simp [existsFollow])
  | succ n ih =>
    intro p h
    simp only [existsFollow] at h ⊢
    cases hl : fsLookup fs p with
    | none => rw [hl] at h; exact absurd h (by simp)
    | some x =>
      have hqp : ¬ q = p := by
        intro e
        rw [e] at hq
        rw [hq] at hl
        cases hl
      rw [hl] at h
      rw [fsLookup_cons_ne fs q p o hqp, hl]
      cases x with
      | file => rfl
      | dir => rfl
      | symlink t => exact ih t h

lemma existsS_ensureDir (fs : FS) (d p : Str) (h : existsS fs p = true) :
    existsS (ensureDir fs d) p = true := by
  unfold ensureDir
  cases hl : fsLookup fs d with
  | some o => exact h
  | none =>
    unfold existsS at h ⊢
    have h1 := existsFollow_insert fs d .dir hl (fs.length + 1) p h
    exact existsFollow_fuel_mono _ (fs.length + 1) (((d, FSObj.dir) :: fs).length + 1) p
      (by simp) h1

lemma symlinkStep_ok (fsU : FS) (f : PlanFile) (oe : Option FsErr) (fs' : FS)
    (h : (match symlinkCreate fsU (symTargetOf f) f.target with
      | Except.error e => ((some e : Option FsErr), fsU)
      | Except.ok fs'' => (none, fs'')) = (oe, fs')) :
    (oe = none → fs' = (f.target, FSObj.symlink (symTargetOf f)) :: fsU)
    ∧ (fs' = fsU ∨ fs' = (f.target, FSObj.symlink (symTargetOf f)) :: fsU) := by
  cases hs : symlinkCreate fsU (symTargetOf f) f.target with
  | error e =>
    rw [hs] at h
    have h2 : fsU = fs' := congrArg Prod.snd h
    have h1 : (some e : Option FsErr) = oe := congrArg Prod.fst h
    constructor
    · intro hoe
      rw [hoe] at h1
      exact Option.noConfusion h1
    · exact Or.inl h2.symm
  | ok fs2 =>
    rw [hs] at h
    have h2 : fs2 = fs' := congrArg Prod.snd h
    have h3 := symlinkCreate_ok_eq fsU fs2 _ _ hs
    constructor
    · intro _
      rw [← h2, h3]
    · exact Or.inr (by rw [← h2, h3])

lemma installOneFileAt_sym (fs : FS) (f : PlanFile) (h1 : f.isSymlink = true)
    (h2 : ¬ f.linkTarget = []) (fs' : FS)
    (hok : installOneFileAt fs f = (none, fs')) :
    fsLookup fs' f.target = some (.symlink (symTargetOf f)) := by
  unfold installOneFileAt at hok
  rw [if_pos ⟨h1, h2⟩] at hok
  by_cases hex : existsS fs f.target = true
  · rw [if_pos hex] at hok
    cases hu : unlink fs f.target with
    | error e =>
      rw [hu] at hok
      have hbad : (some e : Option FsErr) = none := congrArg Prod.fst hok
      exact Option.noConfusion hbad
    | ok fs1 =>
      rw [hu] at hok
      have hok' : (match symlinkCreate fs1 (symTargetOf f) f.target with
          | Except.error e => ((some e : Option FsErr), fs1)
          | Except.ok fs'' => (none, fs'')) = ((none : Option FsErr), fs') := hok
      rw [(symlinkStep_ok fs1 f none fs' hok').1 rfl]
      exact fsLookup_cons_self _ _ _
  · rw [if_neg hex] at hok
    have hok' : (match symlinkCreate fs (symTargetOf f) f.target with
        | Except.error e => ((some e : Option FsErr), fs)
        | Except.ok fs'' => (none, fs'')) = ((none : Option FsErr), fs') := hok
    rw [(symlinkStep_ok fs f none fs' hok').1 rfl]
    exact fsLookup_cons_self _ _ _

lemma installOneFile_sym (fs : FS) (f : PlanFile) (h1 : f.isSymlink = true)
    (h2 : ¬ f.linkTarget = []) (h3 : isAbsolute f.linkTarget = false) (fs' : FS)
    (hok : installOneFile fs f = (none, fs')) :
    fsLookup fs' f.target = some (.symlink f.linkTarget) := by
  unfold installOneFile at hok
  have h := installOneFileAt_sym _ f h1 h2 fs' hok
  rwa [symTargetOf_rel f h3] at h

lemma installOneFileAt_keep (fs : FS) (f : PlanFile) (p : Str) (oe : Option FsErr) (fs' : FS)
    (h : installOneFileAt fs f = (oe, fs')) (h1 : ¬ f.target = p) :
    fsLookup fs' p = fsLookup fs p := by
  unfold installOneFileAt at h
  by_cases hsym : f.isSymlink = true ∧ ¬ f.linkTarget = []
  · rw [if_pos hsym] at h
    by_cases hex : existsS fs f.target = true
    · rw [if_pos hex] at h
      cases hu : unlink fs f.target with
      | error e =>
        rw [hu] at h
        have hf : fs = fs' := congrArg Prod.snd h
        rw [← hf]
      | ok fs1 =>
        rw [hu] at h
        have hfs1 : fs1 = fsRemoveEntry fs f.target := unlink_ok_eq fs fs1 f.target hu
        have h' : (match symlinkCreate fs1 (symTargetOf f) f.target with
            | Except.error e => ((some e : Option FsErr), fs1)
            | Except.ok fs'' => (none, fs'')) = (oe, fs') := h
        have hstep := (symlinkStep_ok fs1 f oe fs' h').2
        have hbase : fsLookup fs1 p = fsLookup fs p := by
          rw [hfs1, fsLookup_removeEntry_ne fs f.target p h1]
        rcases hstep with hf | hf
        · rw [hf, hbase]
        · rw [hf, fsLookup_cons_ne fs1 f.target p _ h1, hbase]
    · rw [if_neg hex] at h
      have h' : (match symlinkCreate fs (symTargetOf f) f.target with
          | Except.error e => ((some e : Option FsErr), fs)
          | Except.ok fs'' => (none, fs'')) = (oe, fs') := h
      have hstep := (symlinkStep_ok fs f oe fs' h').2
      rcases hstep with hf | hf
      · rw [hf]
      · rw [hf, fsLookup_cons_ne fs f.target p _ h1]
  · rw [if_neg hsym] at h
    have hf : copyFileTo fs f.target = fs' := congrArg Prod.snd h
    rw [← hf]
    unfold copyFileTo
    rw [fsLookup_cons_ne _ f.target p _ h1, fsLookup_removeEntry_ne fs f.target p h1]

lemma installOneFile_keep (fs : FS) (f : PlanFile) (p : Str) (oe : Option FsErr) (fs' : FS)
    (h : installOneFile fs f = (oe, fs')) (h1 : ¬ f.target = p)
    (h2 : ¬ dirname f.target = p) :
    fsLookup fs' p = fsLookup fs p := by
  unfold installOneFile at h
  rw [installOneFileAt_keep _ f p oe fs' h h1, fsLookup_ensureDir_ne fs (dirname f.target) p h2]

lemma installFiles_keepSym :
    ∀ (plan : List PlanFile) (fs fs' : FS) (e : PlanFile),
      (∀ f ∈ plan, f.target = e.target → f = e) →
      (∀ f ∈ plan, ¬ dirname f.target = e.target) →
      e.isSymlink = true → ¬ e.linkTarget = [] → isAbsolute e.linkTarget = false →
      fsLookup fs e.target = some (.symlink e.linkTarget) →
      installFiles fs plan = (none, fs') →
      fsLookup fs' e.target = some (.symlink e.linkTarget) := by
  intro plan
  induction plan with
  | nil =>
    intro fs fs' e _ _ _ _ _ hcur hrun
    have hf : fs = fs' := by simpa [installFiles] using hrun
    rw [← hf]
    exact hcur
  | cons f rest ih =>
    intro fs fs' e huniq hdir h1 h2 h3 hcur hrun
    unfold installFiles at hrun
    rcases hstep : installOneFile fs f with ⟨oe, fs1⟩
    rw [hstep] at hrun
    cases oe with
    | some e0 => simp at hrun
    | none =>
      by_cases hfe : f = e
      · subst hfe
        have hcur1 := installOneFile_sym fs f h1 h2 h3 fs1 hstep
        exact ih fs1 fs' f (fun g hg => huniq g (List.mem_cons_of_mem f hg))
          (fun g hg => hdir g (List.mem_cons_of_mem f hg)) h1 h2 h3 hcur1 hrun
      · have hft : ¬ f.target = e.target := fun hq => hfe (huniq f (List.mem_cons_self f rest) hq)
        have hkeep := installOneFile_keep fs f e.target none fs1 hstep hft
          (hdir f (List.mem_cons_self f rest))
        have hcur1 : fsLookup fs1 e.target = some (.symlink e.linkTarget) := by
          rw [hkeep]; exact hcur
        exact ih fs1 fs' e (fun g hg => huniq g (List.mem_cons_of_mem f hg))
          (fun g hg => hdir g (List.mem_cons_of_mem f hg)) h1 h2 h3 hcur1 hrun

/-- Claim C7: for every plan entry that is a symlink with a relative (not
absolute) target string, when the materialization loop succeeds, reading the
installed link back yields exactly the original relative target string — not
an absolutized resolution of it.  (The uniqueness side conditions say no
other plan entry writes to, or creates a parent directory at, the link's
destination.) -/
theorem relative_symlink_roundtrip :
    ∀ (plan : List PlanFile) (fs fs' : FS) (e : PlanFile),
      e ∈ plan → e.isSymlink = true → ¬ e.linkTarget = [] →
      isAbsolute e.linkTarget = false →
      (∀ f ∈ plan, f.target = e.target → f = e) →
      (∀ f ∈ plan, ¬ dirname f.target = e.target) →
      installFiles fs plan = (none, fs') →
      readLink fs' e.target = some e.linkTarget := by
  intro plan
  induction plan with
  | nil => intro fs fs' e hmem; cases hmem
  | cons f rest ih =>
    intro fs fs' e hmem h1 h2 h3 huniq hdir hrun
    unfold installFiles at hrun
    rcases hstep : installOneFile fs f with ⟨oe, fs1⟩
    rw [hstep] at hrun
    cases oe with
    | some e0 => simp at hrun
    | none =>
      by_cases hfe : f = e
      · subst hfe
        have hcur := installOneFile_sym fs f h1 h2 h3 fs1 hstep
        have hfin := installFiles_keepSym rest fs1 fs' f
          (fun g hg => huniq g (List.mem_cons_of_mem f hg))
          (fun g hg => hdir g (List.mem_cons_of_mem f hg)) h1 h2 h3 hcur hrun
        unfold readLink
        rw [hfin]
      · have hmem' : e ∈ rest := by
          rcases List.mem_cons.mp hmem with h | h
          · exact absurd h.symm hfe
          · exact h
        exact ih fs1 fs' e hmem' h1 h2 h3
          (fun g hg => huniq g (List.mem_cons_of_mem f hg))
          (fun g hg => hdir g (List.mem_cons_of_mem f hg)) hrun

/-- Witness for C7: installing a single relative symlink plan entry and
reading the link back yields the original `../a`. -/
theorem relative_symlink_roundtrip_witness :
    readLink [(str "/h/Documents/link", FSObj.symlink (str "../a")), (str "/h/Documents", FSObj.dir)]
      (str "/h/Documents/link") = some (str "../a") :=
  relative_symlink_roundtrip
    [⟨str "/h/Documents/link", true, str "../a", str "/t/x/a"⟩] []
    [(str "/h/Documents/link", FSObj.symlink (str "../a")), (str "/h/Documents", FSObj.dir)]
    ⟨str "/h/Documents/link", true, str "../a", str "/t/x/a"⟩
    (by decide) (by decide) (by decide) (by decide) (by decide) (by decide) (by decide)

/-- Counterexample to C8 as stated: with a *dangling* pre-existing symlink at
the destination, materialization does not remove it (`existsSync` follows
the link and reports false), `fs.symlinkSync` then fails with `EEXIST`, and
the dangling link is still there — the claim's "removes the pre-existing
object and then successfully recreates the link" fails. -/
theorem symlink_overwrite_cex :
    (installOneFile [(str "/d/link", .symlink (str "/nowhere"))]
      ⟨str "/d/link", true, str "../t", str "/abs/t"⟩).1 = some .eexist
    ∧ fsLookup (installOneFile [(str "/d/link", .symlink (str "/nowhere"))]
        ⟨str "/d/link", true, str "../t", str "/abs/t"⟩).2 (str "/d/link")
      = some (.symlink (str "/nowhere")) := by
  constructor <;> decide

/-- Claim C8 amended: for a symlink plan entry whose destination is occupied
by a pre-existing *non-directory* object that exists after following links
(a regular file, or a symlink whose chain resolves), materialization removes
it and successfully recreates the link — with the original target string
when the link target is relative and the resolved absolute target when it is
absolute (`symTargetOf`); a dangling symlink at the destination is not
detected and link creation fails instead. -/
theorem symlink_overwrite_amended :
    ∀ (fs : FS) (f : PlanFile) (obj : FSObj),
      f.isSymlink = true → ¬ f.linkTarget = [] → ¬ dirname f.target = f.target →
      fsLookup fs f.target = some obj → ¬ obj = .dir → existsS fs f.target = true →
      (installOneFile fs f).1 = none ∧
      fsLookup (installOneFile fs f).2 f.target = some (.symlink (symTargetOf f)) := by
  intro fs f obj h1 h2 hdne hlk hobj hex
  unfold installOneFile installOneFileAt
  rw [if_pos ⟨h1, h2⟩]
  have hlk1 : fsLookup (ensureDir fs (dirname f.target)) f.target = some obj := by
    rw [fsLookup_ensureDir_ne fs _ _ hdne, hlk]
  have hex1 : existsS (ensureDir fs (dirname f.target)) f.target = true :=
    existsS_ensureDir fs (dirname f.target) _ hex
  rw [if_pos hex1]
  have hun : unlink (ensureDir fs (dirname f.target)) f.target
      = .ok (fsRemoveEntry (ensureDir fs (dirname f.target)) f.target) := by
    unfold unlink
    rw [hlk1]
    cases obj with
    | dir => exact absurd rfl hobj
    | file => rfl
    | symlink t => rfl
  rw [hun]
  have hsc : symlinkCreate (fsRemoveEntry (ensureDir fs (dirname f.target)) f.target)
      (symTargetOf f) f.target
      = .ok ((f.target, .symlink (symTargetOf f))
          :: fsRemoveEntry (ensureDir fs (dirname f.target)) f.target) := by
    unfold symlinkCreate
    rw [fsLookup_removeEntry_self]
  simp only [hsc]
  exact ⟨trivial, fsLookup_cons_self _ _ _⟩

/-- Witness for C8 amended: a pre-existing regular file at the destination is
removed and the relative link is recreated with its original target. -/
theorem symlink_overwrite_amended_witness :
    (installOneFile [(str "/d/f", FSObj.file)]
      ⟨str "/d/f", true, str "../x", str "/t/s/x"⟩).1 = none
    ∧ fsLookup (installOneFile [(str "/d/f", FSObj.file)]
        ⟨str "/d/f", true, str "../x", str "/t/s/x"⟩).2 (str "/d/f")
      = some (.symlink (symTargetOf ⟨str "/d/f", true, str "../x", str "/t/s/x"⟩)) :=
  symlink_overwrite_amended [(str "/d/f", FSObj.file)]
    ⟨str "/d/f", true, str "../x", str "/t/s/x"⟩ FSObj.file
    (by decide) (by decide) (by decide) (by decide) (by decide) (by decide)

/-!  ## Claims 1 and 5: marker resolution and the metadata special case -/

lemma removeFirstOcc_pre (pat r : Str) (hp : ¬ pat = []) :
    removeFirstOcc pat (pat ++ r) = r := by
  cases pat with
  | nil => exact absurd rfl hp
  | cons c cs =>
    have hpre : strPre (c :: cs) (c :: (cs ++ r)) = true := by
      have h := strPre_append_self (c :: cs) r
      rwa [List.cons_append] at h
    rw [List.cons_append, removeFirstOcc, if_pos hpre]
    simp [List.drop_left]

lemma cleanAndMapPath_marker (home : Str) (fs : FS) (w r m dest : Str)
    (hclean : stripMacosx (dropJunkLead (toSlashes (w ++ (m ++ '/' :: r)))) = w ++ (m ++ '/' :: r))
    (hvm : viaMarker home (w ++ (m ++ '/' :: r)) = some dest) :
    cleanAndMapPath home fs (w ++ (m ++ '/' :: r)) = (some dest, fs) := by
  simp only [cleanAndMapPath, hclean, hvm]

/-- Core of the amended C1/C5 marker direction: a path of the form
`wrapper ++ marker ++ "/" ++ remainder` — wrapper free of `@` and
backslashes, not starting with stripped junk, no `__MACOSX/` anywhere,
marker a key of the table (`lookupFirstKey`) that is slash-prefix-separated
from every other key and from `@all` — resolves to
`path.join(base, remainder)` without touching the filesystem. -/
lemma marker_resolution (home : Str) (fs : FS) (w r m b : Str)
    (hkey : lookupFirstKey (specialPaths home) m = some b)
    (hsep : ∀ p ∈ specialPaths home, ¬ p.1 = m →
      strPre (p.1 ++ ['/']) (m ++ ['/']) = false ∧ strPre (m ++ ['/']) (p.1 ++ ['/']) = false)
    (hshape : m.head? = some '@')
    (hword : (m.drop 1).all isWordChar = true)
    (hwne : ¬ m.drop 1 = [])
    (hallsep1 : strPre (str "@all" ++ ['/']) (m ++ ['/']) = false)
    (hallsep2 : strPre (m ++ ['/']) (str "@all" ++ ['/']) = false)
    (hat : '@' ∉ w) (hbw : '\\' ∉ w) (hbm : '\\' ∉ m) (hbr : '\\' ∉ r)
    (hhead : headOkay (w ++ (m ++ '/' :: r)) = true)
    (hmac : containsSubstr (str "__MACOSX/") (w ++ (m ++ '/' :: r)) = false) :
    cleanAndMapPath home fs (w ++ (m ++ '/' :: r)) = (some (pathJoin b r), fs) := by
  obtain ⟨c0, mt, rfl⟩ : ∃ c0 mt, m = c0 :: mt := by
    cases m with
    | nil => simp at hshape
    | cons a l => exact ⟨a, l, rfl⟩
  have hc0 : c0 = '@' := by simpa using hshape
  subst hc0
  have hmt_word : ∀ c ∈ mt, isWordChar c = true := by
    intro c hc
    exact List.all_eq_true.mp hword c hc
  have hmtne : ¬ mt = [] := by simpa using hwne
  have hnb : ∀ c ∈ w ++ (('@' :: mt) ++ '/' :: r), ¬ c = '\\' := by
    intro c hc
    rcases List.mem_append.mp hc with h | h
    · exact fun he => hbw (he ▸ h)
    · rcases List.mem_append.mp h with h2 | h2
      · exact fun he => hbm (he ▸ h2)
      · rcases List.mem_cons.mp h2 with rfl | h3
        · decide
        · exact fun he => hbr (he ▸ h3)
  have hclean := clean_id (w ++ (('@' :: mt) ++ '/' :: r)) hnb hhead hmac
  have hfind : findAtToken (w ++ (('@' :: mt) ++ '/' :: r)) = some ('@' :: mt) := by
    rw [findAtToken_append w _ hat]
    exact findAtToken_marker mt r hmt_word hmtne
  have hall : strPre (str "@all/") (('@' :: mt) ++ '/' :: r) = false := by
    have he : str "@all/" = str "@all" ++ ['/'] := by decide
    rw [he]
    exact strPre_sep_false (str "@all") ('@' :: mt) r hallsep1 hallsep2
  have hlook := lookupSpecial_first (specialPaths home) ('@' :: mt) b r hkey hsep
  have hvm : viaMarker home (w ++ (('@' :: mt) ++ '/' :: r)) = some (pathJoin b r) := by
    have hdrop : dropToFirstOcc ('@' :: mt) (w ++ (('@' :: mt) ++ '/' :: r))
        = ('@' :: mt) ++ '/' :: r := by
      rw [dropToFirstOcc_append _ w _ (by simp) hat]
      exact dropToFirstOcc_of_pre _ _ (by simp) (strPre_append_self ('@' :: mt) ('/' :: r))
    simp only [viaMarker, hfind, hdrop, stripAll, hall, Bool.false_eq_true, if_false]
    exact hlook
  exact cleanAndMapPath_marker home fs w r ('@' :: mt) (pathJoin b r) hclean hvm

/-- Rejection direction shared by C1's amended claim: a path with no `@` at
all, no backslash, no `metadata/` and no `__MACOSX/` resolves to `null`
without touching the filesystem. -/
lemma cleanAndMapPath_rejected (home : Str) (fs : FS) (p : Str)
    (h1 : '@' ∉ p) (h2 : '\\' ∉ p)
    (h3 : containsSubstr (str "metadata/") p = false)
    (h4 : containsSubstr (str "__MACOSX/") p = false) :
    cleanAndMapPath home fs p = (none, fs) := by
  have hts : toSlashes p = p := toSlashes_eq_self p (fun c hc he => h2 (he ▸ hc))
  have h4q : containsSubstr (str "__MACOSX/") (dropJunkLead p) = false :=
    containsSubstr_dropWhile_false _ _ p h4
  have h3q : containsSubstr (str "metadata/") (dropJunkLead p) = false :=
    containsSubstr_dropWhile_false _ _ p h3
  have hstrip : stripMacosx (dropJunkLead p) = dropJunkLead p := stripMacosx_eq_self _ h4q
  have hat : '@' ∉ dropJunkLead p := fun hc => h1 (mem_of_mem_dropWhile _ p '@' hc)
  have hfind : findAtToken (dropJunkLead p) = none := findAtToken_none _ hat
  simp only [cleanAndMapPath, hts, hstrip, viaMarker, hfind, h3q, Bool.false_eq_true, if_false]

/-- Counterexample to C1 as stated: the path `@foo/@documents/x.txt`
contains the valid marker token `@documents` as an `@`-prefixed segment, yet
resolution returns Rejected (`null`), because only the *first* `@`-token
(`@foo`, not in the table) is consulted. -/
theorem resolve_marker_cex :
    (str "@documents") ∈ splitOnChar '/' (str "@foo/@documents/x.txt")
    ∧ lookupFirstKey (specialPaths (str "/h")) (str "@documents") = some (str "/h/Documents")
    ∧ (cleanAndMapPath (str "/h") [] (str "@foo/@documents/x.txt")).1 = none := by
  refine ⟨by decide, by decide, by decide⟩

/-- Claim C1 amended: resolution keys on the *first* substring occurrence of
an `@`-token followed by `/` (not on path segments).  (1) When the first
such token is a table marker `m` — i.e. the wrapper before it contains no
`@` — the result is `path.join(base m, remainder)`, the filesystem
untouched.  (2) A path containing no `@` at all and no `metadata/` segment
is Rejected (`null`), the filesystem untouched.  (Side conditions: no
backslashes, no `__MACOSX/`, no leading stripped junk, and the marker is
slash-prefix-separated from the other table keys and `@all`, which holds for
every key of the table.) -/
theorem resolve_marker_amended :
    (∀ (home : Str) (fs : FS) (w r m b : Str),
      lookupFirstKey (specialPaths home) m = some b →
      (∀ p ∈ specialPaths home, ¬ p.1 = m →
        strPre (p.1 ++ ['/']) (m ++ ['/']) = false ∧ strPre (m ++ ['/']) (p.1 ++ ['/']) = false) →
      m.head? = some '@' → (m.drop 1).all isWordChar = true → ¬ m.drop 1 = [] →
      strPre (str "@all" ++ ['/']) (m ++ ['/']) = false →
      strPre (m ++ ['/']) (str "@all" ++ ['/']) = false →
      '@' ∉ w → '\\' ∉ w → '\\' ∉ m → '\\' ∉ r →
      headOkay (w ++ (m ++ '/' :: r)) = true →
      containsSubstr (str "__MACOSX/") (w ++ (m ++ '/' :: r)) = false →
      cleanAndMapPath home fs (w ++ (m ++ '/' :: r)) = (some (pathJoin b r), fs))
    ∧ (∀ (home : Str) (fs : FS) (p : Str),
      '@' ∉ p → '\\' ∉ p →
      containsSubstr (str "metadata/") p = false →
      containsSubstr (str "__MACOSX/") p = false →
      cleanAndMapPath home fs p = (none, fs)) :=
  ⟨fun home fs w r m b hkey hsep hshape hword hwne ha1 ha2 hat hbw hbm hbr hhead hmac =>
    marker_resolution home fs w r m b hkey hsep hshape hword hwne ha1 ha2 hat hbw hbm hbr
      hhead hmac,
   fun home fs p h1 h2 h3 h4 => cleanAndMapPath_rejected home fs p h1 h2 h3 h4⟩

/-- Witness for C1 amended at concrete inputs: a wrapped `@documents` path
resolves under the Documents base, and a plain path is rejected. -/
theorem resolve_marker_amended_witness :
    cleanAndMapPath (str "/h") [] (str "wrap/" ++ (str "@documents" ++ '/' :: str "x.txt"))
      = (some (pathJoin (str "/h/Documents") (str "x.txt")), [])
    ∧ cleanAndMapPath (str "/h") [] (str "plain.txt") = (none, []) :=
  ⟨resolve_marker_amended.1 (str "/h") [] (str "wrap/") (str "x.txt") (str "@documents")
      (str "/h/Documents") (by decide) (by decide) (by decide) (by decide) (by decide)
      (by decide) (by decide) (by decide) (by decide) (by decide) (by decide) (by decide)
      (by decide),
   resolve_marker_amended.2 (str "/h") [] (str "plain.txt") (by decide) (by decide) (by decide)
      (by decide)⟩

/-- Counterexample to C5 as stated: `@documents/metadata/x.txt` contains a
reserved `metadata/` segment, yet it resolves via the marker table into the
Documents folder, not under the engine's `pluginmetadata` directory — the
marker branch takes precedence. -/
theorem metadata_precedence_cex :
    containsSubstr (str "metadata/") (str "@documents/metadata/x.txt") = true
    ∧ (cleanAndMapPath (str "/h") [] (str "@documents/metadata/x.txt")).1
      = some (str "/h/Documents/metadata/x.txt")
    ∧ strPre (pluginMetaDir (str "/h")) (str "/h/Documents/metadata/x.txt") = false := by
  refine ⟨by decide, by decide, by decide⟩

/-- Claim C5 amended: a path containing a reserved `metadata/` segment
resolves under the per-user `pluginmetadata` directory only when no marker
mapping applies.  (1) When a table marker applies, the marker mapping wins
even though the path is metadata-classified.  (2) A path *starting* with
`metadata/` and containing no `@` resolves to
`path.join(pluginMetaDir, remainder)` and ensures that directory exists. -/
theorem metadata_resolution_amended :
    (∀ (home : Str) (fs : FS) (w r m b : Str),
      lookupFirstKey (specialPaths home) m = some b →
      (∀ p ∈ specialPaths home, ¬ p.1 = m →
        strPre (p.1 ++ ['/']) (m ++ ['/']) = false ∧ strPre (m ++ ['/']) (p.1 ++ ['/']) = false) →
      m.head? = some '@' → (m.drop 1).all isWordChar = true → ¬ m.drop 1 = [] →
      strPre (str "@all" ++ ['/']) (m ++ ['/']) = false →
      strPre (m ++ ['/']) (str "@all" ++ ['/']) = false →
      '@' ∉ w → '\\' ∉ w → '\\' ∉ m → '\\' ∉ r →
      headOkay (w ++ (m ++ '/' :: r)) = true →
      containsSubstr (str "__MACOSX/") (w ++ (m ++ '/' :: r)) = false →
      containsSubstr (str "metadata/") (w ++ (m ++ '/' :: r)) = true →
      cleanAndMapPath home fs (w ++ (m ++ '/' :: r)) = (some (pathJoin b r), fs))
    ∧ (∀ (home : Str) (fs : FS) (r : Str),
      '@' ∉ r → '\\' ∉ r →
      containsSubstr (str "__MACOSX/") (str "metadata/" ++ r) = false →
      cleanAndMapPath home fs (str "metadata/" ++ r)
        = (some (pathJoin (pluginMetaDir home) r), ensureDir fs (pluginMetaDir home))) := by
  constructor
  · intro home fs w r m b hkey hsep hshape hword hwne ha1 ha2 hat hbw hbm hbr hhead hmac _
    exact marker_resolution home fs w r m b hkey hsep hshape hword hwne ha1 ha2 hat hbw hbm
      hbr hhead hmac
  · intro home fs r h1 h2 hmac
    have hts : toSlashes (str "metadata/" ++ r) = str "metadata/" ++ r := by
      apply toSlashes_eq_self
      intro c hc
      rcases List.mem_append.mp hc with h | h
      · intro he
        subst he
        revert h
        decide
      · exact fun he => h2 (he ▸ h)
    have hhead : headOkay (str "metadata/" ++ r) = true := by
      rw [show str "metadata/" ++ r = 'm' :: (str "etadata/" ++ r) from rfl]
      simp [headOkay]
    have hdj : dropJunkLead (str "metadata/" ++ r) = str "metadata/" ++ r :=
      dropJunkLead_eq_self _ hhead
    have hstrip : stripMacosx (str "metadata/" ++ r) = str "metadata/" ++ r :=
      stripMacosx_eq_self _ hmac
    have hat : '@' ∉ str "metadata/" ++ r := by
      intro hc
      rcases List.mem_append.mp hc with h | h
      · revert h
        decide
      · exact h1 h
    have hfind : findAtToken (str "metadata/" ++ r) = none := findAtToken_none _ hat
    have hpre : strPre (str "metadata/") (str "metadata/" ++ r) = true := strPre_append_self _ _
    have hcont : containsSubstr (str "metadata/") (str "metadata/" ++ r) = true :=
      containsSubstr_of_pre _ _ (by decide) hpre
    have hdto : dropToFirstOcc (str "metadata/") (str "metadata/" ++ r)
        = str "metadata/" ++ r := dropToFirstOcc_of_pre _ _ (by decide) hpre
    have hrem : removeFirstOcc (str "metadata/") (str "metadata/" ++ r) = r :=
      removeFirstOcc_pre _ r (by decide)
    simp only [cleanAndMapPath, hts, hdj, hstrip, viaMarker, hfind, hcont, if_true, hdto, hrem]

/-- Witness for C5 amended at concrete inputs: a metadata-classified path
with an applicable marker goes to Documents; a plain `metadata/`-rooted path
goes under `pluginmetadata` and creates that directory. -/
theorem metadata_resolution_amended_witness :
    cleanAndMapPath (str "/h") [] (str "" ++ (str "@documents" ++ '/' :: str "metadata/x.txt"))
      = (some (pathJoin (str "/h/Documents") (str "metadata/x.txt")), [])
    ∧ cleanAndMapPath (str "/h") [] (str "metadata/" ++ str "data.json")
      = (some (pathJoin (pluginMetaDir (str "/h")) (str "data.json")),
         ensureDir [] (pluginMetaDir (str "/h"))) :=
  ⟨metadata_resolution_amended.1 (str "/h") [] (str "") (str "metadata/x.txt")
      (str "@documents") (str "/h/Documents") (by decide) (by decide) (by decide) (by decide)
      (by decide) (by decide) (by decide) (by decide) (by decide) (by decide) (by decide)
      (by decide) (by decide) (by decide),
   metadata_resolution_amended.2 (str "/h") [] (str "data.json") (by decide) (by decide)
      (by decide)⟩

/-!  ## Claim 2: unforced conflicts block the install -/

/-- The conflict list a run would compute: filter the entries, map them to
destinations, and scan for existing non-metadata destinations (all with the
resolver's filesystem side effects threaded through). -/
def conflictsOf (home : Str) (fs : FS) (entries : List Entry) : List Str :=
  existingOf home
    (mkInstallPaths home (filterValid home fs entries).2 (filterValid home fs entries).1).2
    (mkInstallPaths home (filterValid home fs entries).2 (filterValid home fs entries).1).1

lemma cleanAndMapPath_fs (home : Str) (fs : FS) (p : Str) :
    (cleanAndMapPath home fs p).2 = fs ∨
    (cleanAndMapPath home fs p).2 = ensureDir fs (pluginMetaDir home) := by
  unfold cleanAndMapPath
  cases hv : viaMarker home (stripMacosx (dropJunkLead (toSlashes p))) with
  | some dest => simp [hv]
  | none =>
    by_cases hc : containsSubstr (str "metadata/") (stripMacosx (dropJunkLead (toSlashes p))) = true
    · simp [hv, hc]
    · simp [hv, Bool.eq_false_iff.mpr hc]

lemma chainE (fs x y : FS) (d : Str)
    (h1 : x = fs ∨ x = ensureDir fs d) (h2 : y = x ∨ y = ensureDir x d) :
    y = fs ∨ y = ensureDir fs d := by
  rcases h1 with rfl | rfl
  · exact h2
  · rcases h2 with rfl | rfl
    · right
      rfl
    · right
      rw [ensureDir_idem]

lemma filterValid_fs (home : Str) :
    ∀ (entries : List Entry) (fs : FS),
      (filterValid home fs entries).2 = fs ∨
      (filterValid home fs entries).2 = ensureDir fs (pluginMetaDir home) := by
  intro entries
  induction entries with
  | nil => intro fs; left; rfl
  | cons e rest ih =>
    intro fs
    by_cases hj : isSysJunk e.entryName = true
    · rw [show filterValid home fs (e :: rest) = filterValid home fs rest from by
        simp [filterValid, hj]]
      exact ih fs
    · have hj' : isSysJunk e.entryName = false := Bool.eq_false_iff.mpr hj
      rcases hcm : cleanAndMapPath home fs e.entryName with ⟨res, fs1⟩
      have h1 := cleanAndMapPath_fs home fs e.entryName
      rw [hcm] at h1
      rcases hfv : filterValid home fs1 rest with ⟨tail, fs2⟩
      have h2 := ih fs1
      rw [hfv] at h2
      have hstep : (filterValid home fs (e :: rest)).2 = fs2 := by
        simp only [filterValid, hj', Bool.false_eq_true, if_false, hcm, hfv]
        cases res <;> rfl
      rw [hstep]
      exact chainE fs fs1 fs2 _ h1 h2

lemma mkInstallPaths_fs (home : Str) :
    ∀ (entries : List Entry) (fs : FS),
      (mkInstallPaths home fs entries).2 = fs ∨
      (mkInstallPaths home fs entries).2 = ensureDir fs (pluginMetaDir home) := by
  intro entries
  induction entries with
  | nil => intro fs; left; rfl
  | cons e rest ih =>
    intro fs
    rcases hcm : cleanAndMapPath home fs e.entryName with ⟨res, fs1⟩
    have h1 := cleanAndMapPath_fs home fs e.entryName
    rw [hcm] at h1
    rcases hmp : mkInstallPaths home fs1 rest with ⟨tail, fs2⟩
    have h2 := ih fs1
    rw [hmp] at h2
    have hstep : (mkInstallPaths home fs (e :: rest)).2 = fs2 := by
      simp only [mkInstallPaths, hcm, hmp]
      cases res <;> rfl
    rw [hstep]
    exact chainE fs fs1 fs2 _ h1 h2

/-- Counterexample to C2 as stated: an archive with a metadata entry plus a
conflicting `@documents` entry fails with the conflict error, but the
engine's `pluginmetadata` directory — a path outside the scratch area — has
been created on the way (by `cleanAndMapPath`'s `ensureDirSync`). -/
theorem conflict_fs_change_cex :
    (installFromFileModel (str "/h") ⟨false, true, str "y"⟩ ⟨str "P", str "1.0.0", []⟩
      [⟨str "metadata/data.json", false, [], []⟩, ⟨str "@documents/x.txt", false, [], []⟩]
      ⟨[(str "/h/Documents/x.txt", FSObj.file)], [], false⟩).1
      = .failure (.conflictExisting 1)
    ∧ fsLookup [(str "/h/Documents/x.txt", FSObj.file)] (pluginMetaDir (str "/h")) = none
    ∧ fsLookup (installFromFileModel (str "/h") ⟨false, true, str "y"⟩ ⟨str "P", str "1.0.0", []⟩
        [⟨str "metadata/data.json", false, [], []⟩, ⟨str "@documents/x.txt", false, [], []⟩]
        ⟨[(str "/h/Documents/x.txt", FSObj.file)], [], false⟩).2.fsys
        (pluginMetaDir (str "/h")) = some .dir := by
  refine ⟨by decide, by decide, by decide⟩

/-- Claim C2 amended: when the conflict scan finds an existing non-metadata
destination and the force flag is off, the run fails with the conflict error
before any confirmation is consulted, the manifest is untouched, the scratch
directory is removed, and the only filesystem path outside the scratch area
that can differ from the initial state is the engine's own `pluginmetadata`
directory. -/
theorem conflict_blocks_install :
    ∀ (home : Str) (cfg : InstallConfig) (meta : MetaInfo) (entries : List Entry)
      (fs : FS) (manifest : Manifest) (sc : Bool),
      cfg.forceInstall = false →
      ¬ conflictsOf home fs entries = [] →
      (installFromFileModel home cfg meta entries ⟨fs, manifest, sc⟩).1
        = .failure (.conflictExisting (conflictsOf home fs entries).length)
      ∧ (installFromFileModel home cfg meta entries ⟨fs, manifest, sc⟩).2.manifest = manifest
      ∧ (installFromFileModel home cfg meta entries ⟨fs, manifest, sc⟩).2.scratch = false
      ∧ ∀ p, ¬ p = pluginMetaDir home →
          fsLookup (installFromFileModel home cfg meta entries ⟨fs, manifest, sc⟩).2.fsys p
            = fsLookup fs p := by
  intro home cfg meta entries fs manifest sc hforce hconf
  rcases h1 : filterValid home fs entries with ⟨osFiles, fs1⟩
  rcases h2 : mkInstallPaths home fs1 osFiles with ⟨plan, fs2⟩
  have hc : conflictsOf home fs entries = existingOf home fs2 plan := by
    simp [conflictsOf, h1, h2]
  have hconf2 : ¬ existingOf home fs2 plan = [] := by
    rw [← hc]
    exact hconf
  have hplanne : ¬ plan = [] := by
    intro he
    rw [he] at hconf2
    exact hconf2 rfl
  have hosne : ¬ osFiles = [] := by
    intro he
    subst he
    have h2' : (([] : List PlanFile), fs1) = (plan, fs2) := by
      rw [← h2]
      rfl
    have hp : plan = [] := by
      have h3 := congrArg Prod.fst h2'
      simpa using h3.symm
    exact hplanne hp
  have hbody : installBody home cfg meta entries ⟨fs, manifest, true⟩
      = (.failure (.conflictExisting (existingOf home fs2 plan).length),
         ⟨fs2, manifest, true⟩) := by
    simp only [installBody, h1, h2]
    rw [if_neg hosne, if_neg hplanne, if_pos ⟨hconf2, hforce⟩]
  have hrun : installFromFileModel home cfg meta entries ⟨fs, manifest, sc⟩
      = (.failure (.conflictExisting (existingOf home fs2 plan).length),
         ⟨fs2, manifest, false⟩) := by
    simp only [installFromFileModel]
    rw [show ({ (⟨fs, manifest, sc⟩ : SysState) with scratch := true })
        = (⟨fs, manifest, true⟩ : SysState) from rfl]
    rw [hbody]
  have hfs2 : fs2 = fs ∨ fs2 = ensureDir fs (pluginMetaDir home) := by
    have ha := filterValid_fs home entries fs
    rw [h1] at ha
    have hb := mkInstallPaths_fs home osFiles fs1
    rw [h2] at hb
    exact chainE fs fs1 fs2 _ ha hb
  refine ⟨by rw [hrun, hc], by rw [hrun], by rw [hrun], ?_⟩
  intro p hp
  rw [hrun]
  show fsLookup fs2 p = fsLookup fs p
  rcases hfs2 with rfl | rfl
  · rfl
  · exact fsLookup_ensureDir_ne fs (pluginMetaDir home) p (fun he => hp he.symm)

/-- Witness for C2 amended at the counterexample's inputs. -/
theorem conflict_blocks_install_witness :
    (installFromFileModel (str "/h") ⟨false, true, str "y"⟩ ⟨str "P", str "1.0.0", []⟩
      [⟨str "metadata/data.json", false, [], []⟩, ⟨str "@documents/x.txt", false, [], []⟩]
      ⟨[(str "/h/Documents/x.txt", FSObj.file)], [], false⟩).1
      = .failure (.conflictExisting (conflictsOf (str "/h")
          [(str "/h/Documents/x.txt", FSObj.file)]
          [⟨str "metadata/data.json", false, [], []⟩,
           ⟨str "@documents/x.txt", false, [], []⟩]).length)
    ∧ (installFromFileModel (str "/h") ⟨false, true, str "y"⟩ ⟨str "P", str "1.0.0", []⟩
        [⟨str "metadata/data.json", false, [], []⟩, ⟨str "@documents/x.txt", false, [], []⟩]
        ⟨[(str "/h/Documents/x.txt", FSObj.file)], [], false⟩).2.manifest = []
    ∧ (installFromFileModel (str "/h") ⟨false, true, str "y"⟩ ⟨str "P", str "1.0.0", []⟩
        [⟨str "metadata/data.json", false, [], []⟩, ⟨str "@documents/x.txt", false, [], []⟩]
        ⟨[(str "/h/Documents/x.txt", FSObj.file)], [], false⟩).2.scratch = false
    ∧ fsLookup (installFromFileModel (str "/h") ⟨false, true, str "y"⟩ ⟨str "P", str "1.0.0", []⟩
        [⟨str "metadata/data.json", false, [], []⟩, ⟨str "@documents/x.txt", false, [], []⟩]
        ⟨[(str "/h/Documents/x.txt", FSObj.file)], [], false⟩).2.fsys
        (str "/h/Documents/x.txt")
      = fsLookup [(str "/h/Documents/x.txt", FSObj.file)] (str "/h/Documents/x.txt") :=
  ⟨(conflict_blocks_install (str "/h") ⟨false, true, str "y"⟩ ⟨str "P", str "1.0.0", []⟩
      [⟨str "metadata/data.json", false, [], []⟩, ⟨str "@documents/x.txt", false, [], []⟩]
      [(str "/h/Documents/x.txt", FSObj.file)] [] false rfl (by decide)).1,
   (conflict_blocks_install (str "/h") ⟨false, true, str "y"⟩ ⟨str "P", str "1.0.0", []⟩
      [⟨str "metadata/data.json", false, [], []⟩, ⟨str "@documents/x.txt", false, [], []⟩]
      [(str "/h/Documents/x.txt", FSObj.file)] [] false rfl (by decide)).2.1,
   (conflict_blocks_install (str "/h") ⟨false, true, str "y"⟩ ⟨str "P", str "1.0.0", []⟩
      [⟨str "metadata/data.json", false, [], []⟩, ⟨str "@documents/x.txt", false, [], []⟩]
      [(str "/h/Documents/x.txt", FSObj.file)] [] false rfl (by decide)).2.2.1,
   (conflict_blocks_install (str "/h") ⟨false, true, str "y"⟩ ⟨str "P", str "1.0.0", []⟩
      [⟨str "metadata/data.json", false, [], []⟩, ⟨str "@documents/x.txt", false, [], []⟩]
      [(str "/h/Documents/x.txt", FSObj.file)] [] false rfl (by decide)).2.2.2
      (str "/h/Documents/x.txt") (by decide)⟩

end Pawkit
